import Mathlib

/-!
# Verification of the ProxyD IP-reputation core

A shallow embedding of the ProxyD repository's core data structures and
operations, translated from the Rust sources:

* `src/ip/trie.rs`   — the Patricia trie over IPv4/IPv6 CIDRs,
* `src/db/lmdb.rs`   — the keyed store (four entry partitions + metadata),
* `src/sync/importer.rs` — full and incremental import, CSV flag parsing,
* `src/ip/matcher.rs` — the lookup engine (single and batch).

Machine integers (`u8`, `u32`, `u128`) are embedded as `Nat`; all bit
arithmetic mirrors the source expressions (shifts, xor, leading-zeros).
The LMDB tables are embedded as association lists with distinct keys;
key-value `put` replaces in place or appends, `delete` removes the key.
-/

namespace ProxyD

/-! ## Reputation flags (`src/ip/matcher.rs`) -/

structure ReputationFlags where
  anonblock : Bool
  proxy : Bool
  vpn : Bool
  cdn : Bool
  public_wifi : Bool
  rangeblock : Bool
  school_block : Bool
  tor : Bool
  webhost : Bool
deriving DecidableEq, Repr

/-- Mirrors `ReputationFlags::default()` — all flags false. -/
def ReputationFlags.defaultFlags : ReputationFlags :=
  ⟨false, false, false, false, false, false, false, false, false⟩

instance : Inhabited ReputationFlags := ⟨ReputationFlags.defaultFlags⟩

/-- Mirrors `ReputationFlags::merge` — field-wise boolean or. -/
def ReputationFlags.merge (a b : ReputationFlags) : ReputationFlags :=
  ⟨a.anonblock || b.anonblock, a.proxy || b.proxy, a.vpn || b.vpn,
   a.cdn || b.cdn, a.public_wifi || b.public_wifi, a.rangeblock || b.rangeblock,
   a.school_block || b.school_block, a.tor || b.tor, a.webhost || b.webhost⟩

/-! ## Addresses and networks

`IpAddr` carries the address bits (`u32` resp. `u128` as `Nat`);
`IpNetwork` carries the raw address bits of the parsed text plus the
prefix length, exactly as the `ipnetwork` crate does (the crate does not
canonicalise on construction; `network()` masks on demand). -/

inductive IpAddr where
  | v4 (bits : Nat)
  | v6 (bits : Nat)
deriving DecidableEq, Repr

inductive IpNetwork where
  | v4 (ip : Nat) (plen : Nat)
  | v6 (ip : Nat) (plen : Nat)
deriving DecidableEq, Repr

/-- Address-family bit width of a network (32 for v4, 128 for v6). -/
def IpNetwork.width : IpNetwork → Nat
  | .v4 _ _ => 32
  | .v6 _ _ => 128

def IpNetwork.prefixLen : IpNetwork → Nat
  | .v4 _ p => p
  | .v6 _ p => p

/-- Mirrors `IpNetwork::ip()` — the raw (possibly uncanonical) address. -/
def IpNetwork.rawIp : IpNetwork → IpAddr
  | .v4 b _ => .v4 b
  | .v6 b _ => .v6 b

/-- Mirrors `IpAddr::max_prefix_len` (the `IpAddrExt` trait in `lmdb.rs`). -/
def IpAddr.maxPrefixLen : IpAddr → Nat
  | .v4 _ => 32
  | .v6 _ => 128

/-- The network address: host bits below the prefix zeroed
(`Ipv4Network::network()` / `Ipv6Network::network()`). -/
def netAddr (ip p w : Nat) : Nat := (ip >>> (w - p)) <<< (w - p)

/-- The `network()` address of a parsed network, as address bits. -/
def IpNetwork.netBits : IpNetwork → Nat
  | .v4 b p => netAddr b p 32
  | .v6 b p => netAddr b p 128

/-- The canonical form of a network: host bits zeroed. -/
def IpNetwork.canonical : IpNetwork → IpNetwork
  | .v4 b p => .v4 (netAddr b p 32) p
  | .v6 b p => .v6 (netAddr b p 128) p

/-- A structurally valid network value: prefix within the family width,
address bits within the family range. Every network produced by the
`ipnetwork` parser satisfies this. -/
def IpNetwork.Valid : IpNetwork → Prop
  | .v4 b p => p ≤ 32 ∧ b < 2 ^ 32
  | .v6 b p => p ≤ 128 ∧ b < 2 ^ 128

/-- A valid query address. -/
def IpAddr.Valid : IpAddr → Prop
  | .v4 b => b < 2 ^ 32
  | .v6 b => b < 2 ^ 128

/-- A network whose prefix covers the given address: same family, and the
address agrees with the (canonical) network address on the prefix bits. -/
def covers : IpNetwork → IpAddr → Prop
  | .v4 nb p, .v4 xb => p ≤ 32 ∧ netAddr xb p 32 = netAddr nb p 32
  | .v6 nb p, .v6 xb => p ≤ 128 ∧ netAddr xb p 128 = netAddr nb p 128
  | _, _ => False

/-! ## Bit helpers (`src/ip/trie.rs`) -/

/-- Bit length of a natural number, with explicit fuel so that the kernel
can evaluate it (`bitLenAux 128 n` is the bit length for `n < 2^128`). -/
def bitLenAux : Nat → Nat → Nat
  | 0, _ => 0
  | fuel + 1, n => if n = 0 then 0 else bitLenAux fuel (n / 2) + 1

/-- Mirrors `u128::leading_zeros` for values below `2^128`. -/
def lz128 (d : Nat) : Nat := 128 - bitLenAux 128 d

/-- Mirrors `IpTrie::common_prefix_len`: compare the top
`max_len` bits (of a `total_bits`-wide carrier) via xor and leading zeros. -/
def commonPrefixLen (a b maxLen totalBits : Nat) : Nat :=
  if maxLen = 0 then 0
  else
    let shift := totalBits - maxLen
    let aPre := a >>> shift
    let bPre := b >>> shift
    let diff := aPre ^^^ bPre
    if diff = 0 then maxLen
    else
      let leading := lz128 diff
      min (leading - (128 - maxLen)) maxLen

/-- Mirrors `IpTrie::get_bit` — the bit at position `pos` counting from the most
significant bit of the `totalBits`-wide carrier. -/
def getBit (bits pos totalBits : Nat) : Nat :=
  (bits >>> (totalBits - (pos + 1))) &&& 1

/-- Mirrors `IpTrie::mask_prefix` — keep only the top `prefixLen` bits. -/
def maskPre (bits prefixLen totalBits : Nat) : Nat :=
  if prefixLen = 0 then 0
  else
    let shift := totalBits - prefixLen
    if 128 ≤ shift then 0 else (bits >>> shift) <<< shift

/-! ## The Patricia trie (`src/ip/trie.rs`)

`PatriciaNode` with its two `Option<Box<PatriciaNode>>` children is
embedded as a plain inductive with a `nil` constructor standing for the
absent child (`None`). -/

inductive Nd where
  | nil
  | mk (bits len : Nat) (flags : Option ReputationFlags) (c0 c1 : Nd)
deriving DecidableEq, Repr

/-- Mirrors `IpTrie::insert_node`. -/
def insertNode : Nd → Nat → Nat → Nat → ReputationFlags → Nd
  | .nil, bits, len, _, f => .mk bits len (some f) .nil .nil
  | .mk nb nl nf c0 c1, bits, len, tb, f =>
    let common := commonPrefixLen nb bits (min nl len) tb
    if common = nl ∧ common = len then
      .mk nb nl (some f) c0 c1
    else if common = nl then
      if getBit bits common tb = 0 then
        .mk nb nl nf (insertNode c0 bits len tb f) c1
      else
        .mk nb nl nf c0 (insertNode c1 bits len tb f)
    else
      let cb := maskPre bits common tb
      let old : Nd := .mk nb nl nf c0 c1
      if common = len then
        if getBit nb common tb = 0 then
          .mk cb common (some f) old .nil
        else
          .mk cb common (some f) .nil old
      else
        if getBit bits common tb = 0 then
          .mk cb common none (.mk bits len (some f) .nil .nil) old
        else
          .mk cb common none old (.mk bits len (some f) .nil .nil)

/-- Mirrors `IpTrie::bits_to_network`. The v4 branch truncates to `u32`; the v6
branch guards the 128-bit shift. `IpNetwork::new` fails iff the prefix
exceeds the family width. -/
def bitsToNetwork (bits prefixLen totalBits : Nat) (isV4 : Bool) :
    Option IpNetwork :=
  if isV4 then
    let shift := totalBits - prefixLen
    let masked := ((bits >>> shift) <<< shift) % 2 ^ 32
    if prefixLen ≤ 32 then some (.v4 masked prefixLen) else none
  else
    let shift := totalBits - prefixLen
    let masked := if 128 ≤ shift then 0 else (bits >>> shift) <<< shift
    if prefixLen ≤ 128 then some (.v6 masked prefixLen) else none

/-- The entry emitted at a matching node: present iff the node carries a
payload and `bits_to_network` succeeds (the `if let` chain in the loop). -/
def hereList (nb nl tb : Nat) (isV4 : Bool) :
    Option ReputationFlags → List (IpNetwork × ReputationFlags)
  | some f =>
    match bitsToNetwork nb nl tb isV4 with
    | some net => [(net, f)]
    | none => []
  | none => []

/-- Mirrors `IpTrie::find_matches_impl` — the descent loop, as a recursion. -/
def findMatchesImpl : Nd → Nat → Nat → Bool → List (IpNetwork × ReputationFlags)
  | .nil, _, _, _ => []
  | .mk nb nl nf c0 c1, ip, tb, isV4 =>
    let common := commonPrefixLen nb ip nl tb
    if common < nl then []
    else
      let here := hereList nb nl tb isV4 nf
      if tb ≤ nl then here
      else if getBit ip nl tb = 0 then here ++ findMatchesImpl c0 ip tb isV4
      else here ++ findMatchesImpl c1 ip tb isV4

/-- Mirrors `IpTrie` — two family roots. -/
structure IpTrie where
  v4root : Nd
  v6root : Nd
deriving DecidableEq, Repr

/-- Mirrors `IpTrie::new`. -/
def IpTrie.new : IpTrie := ⟨.nil, .nil⟩

/-- Mirrors `IpTrie::insert` — dispatch on family; the inserted bits are the
network address (host bits zeroed by `n.network()`). -/
def IpTrie.insert (t : IpTrie) (n : IpNetwork) (f : ReputationFlags) : IpTrie :=
  match n with
  | .v4 ip p => { t with v4root := insertNode t.v4root (netAddr ip p 32) p 32 f }
  | .v6 ip p => { t with v6root := insertNode t.v6root (netAddr ip p 128) p 128 f }

/-- Mirrors `IpTrie::find_all_matches`. -/
def IpTrie.findAllMatches (t : IpTrie) (x : IpAddr) :
    List (IpNetwork × ReputationFlags) :=
  match x with
  | .v4 b => findMatchesImpl t.v4root b 32 true
  | .v6 b => findMatchesImpl t.v6root b 128 false

/-- Build a trie by a sequence of inserts starting from `IpTrie::new`. -/
def buildTrie (l : List (IpNetwork × ReputationFlags)) : IpTrie :=
  l.foldl (fun t e => t.insert e.1 e.2) IpTrie.new

/-- The flags attached to the last insertion of network `c` in the list. -/
def lastFlags (l : List (IpNetwork × ReputationFlags)) (c : IpNetwork) :
    Option ReputationFlags :=
  (l.reverse.find? (fun e => decide (e.1 = c))).map (·.2)

/-! ## Bit-level reasoning toolbox

The top `k` bits of a `tb`-bit carrier are `hi a k tb = a >>> (tb - k)`.
All structural facts about `commonPrefixLen`, `getBit` and `maskPre` are
phrased through `hi`. -/

/-- Top `k` bits of `a`, viewed in a `tb`-bit carrier. -/
def hi (a k tb : Nat) : Nat := a >>> (tb - k)

theorem hi_le_of_le {a b : Nat} (k tb : Nat) (h : a = b) : hi a k tb = hi b k tb := by
  rw [h]

theorem hi_zero (a tb : Nat) (ha : a < 2 ^ tb) : hi a 0 tb = 0 := by
  simp only [hi, Nat.sub_zero, Nat.shiftRight_eq_div_pow]
  exact Nat.div_eq_of_lt ha

theorem hi_full (a tb : Nat) : hi a tb tb = a := by
  simp [hi]

theorem hi_hi (a : Nat) {k k' tb : Nat} (hk : k ≤ k') (hk' : k' ≤ tb) :
    hi (hi a k' tb) (k' - (k' - k)) k' = hi a k tb := by
  simp only [hi, Nat.shiftRight_eq_div_pow, Nat.div_div_eq_div_mul, ← Nat.pow_add]
  congr 2
  omega

theorem hi_of_hi {a b : Nat} {k k' tb : Nat} (hk : k ≤ k') (hk' : k' ≤ tb)
    (h : hi a k' tb = hi b k' tb) : hi a k tb = hi b k tb := by
  have ha := hi_hi a hk hk'
  have hb := hi_hi b hk hk'
  rw [← ha, ← hb, h]

theorem hi_lt (a : Nat) {k tb : Nat} (ha : a < 2 ^ tb) (hk : k ≤ tb) :
    hi a k tb < 2 ^ k := by
  simp only [hi, Nat.shiftRight_eq_div_pow]
  apply Nat.div_lt_of_lt_mul
  calc a < 2 ^ tb := ha
    _ = 2 ^ (tb - k) * 2 ^ k := by rw [← Nat.pow_add]; congr 1; omega

theorem hi_succ (a : Nat) {k tb : Nat} (hk : k < tb) :
    hi a (k + 1) tb = 2 * hi a k tb + getBit a k tb := by
  have h1 : tb - k = (tb - (k + 1)) + 1 := by omega
  have h2 : hi a k tb = hi a (k + 1) tb / 2 := by
    simp only [hi, h1, Nat.shiftRight_add, Nat.shiftRight_one]
  have h3 : getBit a k tb = hi a (k + 1) tb % 2 := by
    simp only [getBit, hi, Nat.and_one_is_mod]
  rw [h2, h3]
  omega

theorem getBit_lt (a k tb : Nat) : getBit a k tb < 2 := by
  simp only [getBit, Nat.and_one_is_mod]
  exact Nat.mod_lt _ (by omega)

theorem hi_succ_eq_iff {a b : Nat} {k tb : Nat} (hk : k < tb) :
    hi a (k + 1) tb = hi b (k + 1) tb ↔
      hi a k tb = hi b k tb ∧ getBit a k tb = getBit b k tb := by
  rw [hi_succ a hk, hi_succ b hk]
  have ha := getBit_lt a k tb
  have hb := getBit_lt b k tb
  omega

/-- Unfolding of `maskPre` through `hi`: masking keeps the top bits and
shifts them back into place. -/
theorem maskPre_eq_hi {a p tb : Nat} (htb : tb ≤ 128) (ha : a < 2 ^ tb)
    (hp : p ≤ tb) : maskPre a p tb = hi a p tb <<< (tb - p) := by
  unfold maskPre
  by_cases hp0 : p = 0
  · subst hp0
    simp [hi_zero a tb ha]
  · simp only [if_neg hp0]
    have : ¬ 128 ≤ tb - p := by omega
    simp [this, hi]

theorem maskPre_eq_iff {a b p tb : Nat} (htb : tb ≤ 128) (ha : a < 2 ^ tb)
    (hb : b < 2 ^ tb) (hp : p ≤ tb) :
    maskPre a p tb = maskPre b p tb ↔ hi a p tb = hi b p tb := by
  rw [maskPre_eq_hi htb ha hp, maskPre_eq_hi htb hb hp]
  simp only [Nat.shiftLeft_eq]
  constructor
  · intro h
    exact Nat.eq_of_mul_eq_mul_right (Nat.pos_pow_of_pos _ (by omega)) h
  · intro h; rw [h]

theorem maskPre_hi (a : Nat) {p tb : Nat} (htb : tb ≤ 128) (ha : a < 2 ^ tb)
    (hp : p ≤ tb) : hi (maskPre a p tb) p tb = hi a p tb := by
  rw [maskPre_eq_hi htb ha hp]
  simp only [hi, Nat.shiftLeft_eq, Nat.shiftRight_eq_div_pow]
  exact Nat.mul_div_cancel _ (Nat.pos_pow_of_pos _ (by omega))

theorem maskPre_lt {a p tb : Nat} (htb : tb ≤ 128) (ha : a < 2 ^ tb)
    (hp : p ≤ tb) : maskPre a p tb < 2 ^ tb := by
  rw [maskPre_eq_hi htb ha hp]
  calc hi a p tb <<< (tb - p) = hi a p tb * 2 ^ (tb - p) := Nat.shiftLeft_eq _ _
    _ < 2 ^ p * 2 ^ (tb - p) :=
        (Nat.mul_lt_mul_right (Nat.pos_pow_of_pos _ (by omega))).mpr (hi_lt a ha hp)
    _ = 2 ^ tb := by rw [← Nat.pow_add]; congr 1; omega

theorem maskPre_idem {a p tb : Nat} (htb : tb ≤ 128) (ha : a < 2 ^ tb)
    (hp : p ≤ tb) : maskPre (maskPre a p tb) p tb = maskPre a p tb := by
  have h1 := maskPre_lt htb ha hp
  rw [maskPre_eq_hi htb h1 hp, maskPre_hi a htb ha hp, maskPre_eq_hi htb ha hp]

/-- Bit-length bounds used to characterise `lz128`. -/
theorem bitLenAux_zero (fuel : Nat) : bitLenAux fuel 0 = 0 := by
  cases fuel <;> simp [bitLenAux]

theorem bitLenAux_spec : ∀ fuel n, n ≠ 0 → n < 2 ^ fuel →
    1 ≤ bitLenAux fuel n ∧ 2 ^ (bitLenAux fuel n - 1) ≤ n ∧ n < 2 ^ bitLenAux fuel n := by
  intro fuel
  induction fuel with
  | zero => intro n hn hlt; simp at hlt; omega
  | succ fuel ih =>
    intro n hn hlt
    simp only [bitLenAux, if_neg hn]
    by_cases h2 : n / 2 = 0
    · have hn1 : n = 1 := by omega
      subst hn1
      rw [h2, bitLenAux_zero]
      norm_num
    · have hdiv : n / 2 < 2 ^ fuel := by
        rw [Nat.pow_succ] at hlt
        omega
      obtain ⟨h1, hlow, hhigh⟩ := ih (n / 2) h2 hdiv
      set b := bitLenAux fuel (n / 2) with hb
      refine ⟨by omega, ?_, ?_⟩
      · have : 2 ^ (b - 1) * 2 ≤ (n / 2) * 2 := Nat.mul_le_mul_right 2 hlow
        have hpow : 2 ^ (b + 1 - 1) = 2 ^ (b - 1) * 2 := by
          have : b + 1 - 1 = (b - 1) + 1 := by omega
          rw [this, Nat.pow_succ]
        rw [hpow]
        omega
      · have : (n / 2) * 2 + 2 ≤ 2 ^ b * 2 := by omega
        rw [Nat.pow_succ]
        omega

/-- The value of `commonPrefixLen` when the compared windows differ:
`m - L` where `L` is the bit length of the xor of the two windows. -/
theorem shiftRight_xor (a b n : Nat) : (a ^^^ b) >>> n = a >>> n ^^^ b >>> n := by
  apply Nat.eq_of_testBit_eq
  intro i
  simp [Nat.testBit_shiftRight, Nat.testBit_xor]

theorem shiftRight_eq_zero_iff {a n : Nat} : a >>> n = 0 ↔ a < 2 ^ n := by
  rw [Nat.shiftRight_eq_div_pow]
  exact Nat.div_eq_zero_iff (Nat.pos_pow_of_pos _ (by omega))

theorem hi_eq_iff_xor_lt {a b : Nat} {k m tb : Nat} (hk : k ≤ m) (hm : m ≤ tb) :
    (hi a k tb = hi b k tb ↔ hi a m tb ^^^ hi b m tb < 2 ^ (m - k)) := by
  have ha : hi a k tb = (hi a m tb) >>> (m - k) := by
    simp only [hi, Nat.shiftRight_eq_div_pow, Nat.div_div_eq_div_mul, ← Nat.pow_add]
    congr 2
    omega
  have hb : hi b k tb = (hi b m tb) >>> (m - k) := by
    simp only [hi, Nat.shiftRight_eq_div_pow, Nat.div_div_eq_div_mul, ← Nat.pow_add]
    congr 2
    omega
  rw [ha, hb, ← shiftRight_eq_zero_iff, shiftRight_xor]
  constructor
  · intro h; rw [h]; simp
  · intro h
    have := Nat.xor_eq_zero.mp h
    exact this

/-- Master characterisation of `commonPrefixLen`: it is the largest
`k ≤ maxLen` on which the top `k` bits of `a` and `b` agree. -/
theorem cpl_spec {a b m tb : Nat} (htb : tb ≤ 128) (ha : a < 2 ^ tb)
    (hb : b < 2 ^ tb) (hm : m ≤ tb) :
    commonPrefixLen a b m tb ≤ m ∧
    hi a (commonPrefixLen a b m tb) tb = hi b (commonPrefixLen a b m tb) tb ∧
    (∀ k, k ≤ m → hi a k tb = hi b k tb → k ≤ commonPrefixLen a b m tb) := by
  unfold commonPrefixLen
  by_cases hm0 : m = 0
  · subst hm0
    refine ⟨by simp, by simp [hi_zero a tb ha, hi_zero b tb hb], ?_⟩
    intro k hk _
    simp at hk ⊢
    omega
  · simp only [if_neg hm0]
    have hha : a >>> (tb - m) = hi a m tb := rfl
    have hhb : b >>> (tb - m) = hi b m tb := rfl
    rw [hha, hhb]
    by_cases hd : hi a m tb ^^^ hi b m tb = 0
    · simp only [if_pos hd]
      have heq : hi a m tb = hi b m tb := Nat.xor_eq_zero.mp hd
      exact ⟨le_refl m, heq, fun k hk _ => hk⟩
    · simp only [if_neg hd]
      set d := hi a m tb ^^^ hi b m tb with hdd
      have hdlt : d < 2 ^ m := by
        have h1 := hi_lt a ha hm
        have h2 := hi_lt b hb hm
        exact Nat.xor_lt_two_pow h1 h2
      obtain ⟨hL1, hLlow, hLhigh⟩ := bitLenAux_spec m d hd hdlt
      set L := bitLenAux m d with hLd
      have hLm : L ≤ m := by
        by_contra hcon
        push_neg at hcon
        have : 2 ^ m ≤ 2 ^ (L - 1) := Nat.pow_le_pow_right (by omega) (by omega)
        omega
      have hL128 : bitLenAux 128 d = L := by
        obtain ⟨h1', h2', h3'⟩ := bitLenAux_spec 128 d hd
          (lt_of_lt_of_le hdlt (Nat.pow_le_pow_right (by omega) (by omega)))
        set L' := bitLenAux 128 d with hL'
        by_contra hne
        rcases Nat.lt_or_ge L' L with hlt | hge
        · have : 2 ^ L' ≤ 2 ^ (L - 1) := Nat.pow_le_pow_right (by omega) (by omega)
          omega
        · have : L' ≠ L := hne
          have hgt : L < L' := by omega
          have : 2 ^ L ≤ 2 ^ (L' - 1) := Nat.pow_le_pow_right (by omega) (by omega)
          omega
      have hlzval : lz128 d = 128 - L := by
        simp [lz128, hL128]
      rw [hlzval]
      have hminval : min ((128 - L) - (128 - m)) m = m - L := by
        omega
      rw [hminval]
      refine ⟨by omega, ?_, ?_⟩
      · rw [hi_eq_iff_xor_lt (by omega) hm, ← hdd]
        have : m - (m - L) = L := by omega
        rw [this]
        exact hLhigh
      · intro k hk hagree
        rw [hi_eq_iff_xor_lt hk hm, ← hdd] at hagree
        by_contra hcon
        push_neg at hcon
        have hmk : m - k ≤ L - 1 := by omega
        have : 2 ^ (m - k) ≤ 2 ^ (L - 1) := Nat.pow_le_pow_right (by omega) hmk
        omega

theorem cpl_le_left (a b m tb : Nat) : commonPrefixLen a b m tb ≤ m := by
  unfold commonPrefixLen
  by_cases hm0 : m = 0
  · simp [hm0]
  · simp only [if_neg hm0]
    by_cases hd : a >>> (tb - m) ^^^ b >>> (tb - m) = 0
    · simp [hd]
    · simp only [if_neg hd]
      exact Nat.min_le_right _ _

/-- If the common prefix stops strictly before `m`, the bit right after it
differs. -/
theorem cpl_lt_bit_ne {a b m tb : Nat} (htb : tb ≤ 128) (ha : a < 2 ^ tb)
    (hb : b < 2 ^ tb) (hm : m ≤ tb)
    (hlt : commonPrefixLen a b m tb < m) :
    getBit a (commonPrefixLen a b m tb) tb ≠ getBit b (commonPrefixLen a b m tb) tb := by
  obtain ⟨hle, hagree, hmax⟩ := cpl_spec htb ha hb hm
  intro hbit
  set c := commonPrefixLen a b m tb with hc
  have hsucc : hi a (c + 1) tb = hi b (c + 1) tb :=
    (hi_succ_eq_iff (by omega)).mpr ⟨hagree, hbit⟩
  have := hmax (c + 1) (by omega) hsucc
  omega

/-! ## The Patricia-trie invariant

Reachable tries satisfy: node bits are canonical for the node length and
within the carrier range; children are strictly longer, extend the parent
prefix, and branch on the bit at the parent's length. -/

/-- Conditions a child node must satisfy relative to its parent
(`pb`, `pl`) and its slot index `i`. -/
def childRel (tb pb pl i : Nat) : Nd → Prop
  | .nil => True
  | .mk b l _ _ _ => pl < l ∧ maskPre b pl tb = pb ∧ getBit b pl tb = i

/-- Structural invariant of reachable trie nodes. -/
inductive Inv (tb : Nat) : Nd → Prop
  | nil : Inv tb .nil
  | mk {b l : Nat} {f : Option ReputationFlags} {c0 c1 : Nd} :
      l ≤ tb → b < 2 ^ tb → maskPre b l tb = b →
      Inv tb c0 → Inv tb c1 →
      childRel tb b l 0 c0 → childRel tb b l 1 c1 →
      Inv tb (.mk b l f c0 c1)

/-- Entry contributed by an optional payload. -/
def optEntry (k : Nat × Nat) (f : Option ReputationFlags) :
    List ((Nat × Nat) × ReputationFlags) :=
  match f with
  | some fl => [(k, fl)]
  | none => []

/-- All payload entries stored in a subtree, as `((bits, len), flags)`. -/
def entryList : Nd → List ((Nat × Nat) × ReputationFlags)
  | .nil => []
  | .mk b l f c0 c1 => optEntry (b, l) f ++ entryList c0 ++ entryList c1

theorem mem_optEntry {k k0 : Nat × Nat} {g : ReputationFlags}
    {f : Option ReputationFlags} :
    (k, g) ∈ optEntry k0 f ↔ k = k0 ∧ f = some g := by
  cases f <;> simp [optEntry] <;> aesop

theorem entryList_nil : entryList Nd.nil = [] := rfl

theorem mem_entryList_mk {b l : Nat} {f : Option ReputationFlags} {c0 c1 : Nd}
    {k : Nat × Nat} {g : ReputationFlags} :
    (k, g) ∈ entryList (.mk b l f c0 c1) ↔
      (k = (b, l) ∧ f = some g) ∨
      (k, g) ∈ entryList c0 ∨ (k, g) ∈ entryList c1 := by
  simp [entryList, mem_optEntry, List.mem_append, or_assoc]

/-- Every entry of a valid subtree is canonical, in range, at least as long
as the subtree root, and extends the root's prefix. -/
theorem entry_mem_props {tb : Nat} (htb : tb ≤ 128) :
    ∀ {n : Nd}, Inv tb n → ∀ {kb kl : Nat} {g : ReputationFlags},
      ((kb, kl), g) ∈ entryList n →
      kb < 2 ^ tb ∧ kl ≤ tb ∧ maskPre kb kl tb = kb ∧
      (∀ b l f c0 c1, n = .mk b l f c0 c1 → l ≤ kl ∧ hi kb l tb = hi b l tb) := by
  intro n
  induction n with
  | nil => intro _ kb kl g h; simp [entryList] at h
  | mk b l f c0 c1 ih0 ih1 =>
    intro hInv kb kl g hmem
    cases hInv with
    | mk hl hb hcan hInv0 hInv1 hrel0 hrel1 =>
      simp only [entryList, List.mem_append] at hmem
      rcases hmem with (hroot | h0) | h1
      · obtain ⟨hk, hf⟩ := mem_optEntry.mp hroot
        obtain ⟨hkb, hkl⟩ := Prod.mk.injEq .. ▸ (by exact hk : (kb, kl) = (b, l))
        subst hkb; subst hkl
        exact ⟨hb, hl, hcan, fun b' l' f' c0' c1' he => by
          cases he; exact ⟨le_refl _, rfl⟩⟩
      · obtain ⟨hkb, hkl, hkcan, hext⟩ := ih0 hInv0 h0
        refine ⟨hkb, hkl, hkcan, fun b' l' f' c0' c1' he => ?_⟩
        cases he
        cases hc0 : c0 with
        | nil => rw [hc0] at h0; simp [entryList] at h0
        | mk b2 l2 f2 x2 y2 =>
          rw [hc0] at hrel0 hext hInv0
          obtain ⟨hlt, hmask, hbit⟩ := hrel0
          obtain ⟨hl2, hhi⟩ := hext b2 l2 f2 x2 y2 rfl
          have hb2 : b2 < 2 ^ tb := by cases hInv0; assumption
          refine ⟨by omega, ?_⟩
          have h1 : hi kb l tb = hi b2 l tb :=
            hi_of_hi (by omega) (by omega) hhi
          have h2 : hi b2 l tb = hi b l tb := by
            rw [← maskPre_eq_iff htb hb2 hb (by omega)]
            rw [hmask, hcan]
          rw [h1, h2]
      · obtain ⟨hkb, hkl, hkcan, hext⟩ := ih1 hInv1 h1
        refine ⟨hkb, hkl, hkcan, fun b' l' f' c0' c1' he => ?_⟩
        cases he
        cases hc1 : c1 with
        | nil => rw [hc1] at h1; simp [entryList] at h1
        | mk b2 l2 f2 x2 y2 =>
          rw [hc1] at hrel1 hext hInv1
          obtain ⟨hlt, hmask, hbit⟩ := hrel1
          obtain ⟨hl2, hhi⟩ := hext b2 l2 f2 x2 y2 rfl
          have hb2 : b2 < 2 ^ tb := by cases hInv1; assumption
          refine ⟨by omega, ?_⟩
          have h1' : hi kb l tb = hi b2 l tb :=
            hi_of_hi (by omega) (by omega) hhi
          have h2 : hi b2 l tb = hi b l tb := by
            rw [← maskPre_eq_iff htb hb2 hb (by omega)]
            rw [hmask, hcan]
          rw [h1', h2]

theorem maskPre_hi_le (a : Nat) {k p tb : Nat} (htb : tb ≤ 128)
    (ha : a < 2 ^ tb) (hk : k ≤ p) (hp : p ≤ tb) :
    hi (maskPre a p tb) k tb = hi a k tb :=
  hi_of_hi hk hp (maskPre_hi a htb ha hp)

/-- Keys stored under a child are strictly longer than the parent. -/
theorem entry_child_long {tb : Nat} (htb : tb ≤ 128) {b l i : Nat} {c : Nd}
    (hInvc : Inv tb c) (hrel : childRel tb b l i c) {kb kl : Nat}
    {g : ReputationFlags} (hmem : ((kb, kl), g) ∈ entryList c) : l < kl := by
  cases c with
  | nil => simp [entryList] at hmem
  | mk b2 l2 f2 x2 y2 =>
    obtain ⟨_, _, _, hext⟩ := entry_mem_props htb hInvc hmem
    obtain ⟨hle, _⟩ := hext b2 l2 f2 x2 y2 rfl
    obtain ⟨hlt, _, _⟩ := hrel
    omega

/-- Keys stored under a child carry the child's slot bit at the parent's
length. -/
theorem entry_child_bit {tb : Nat} (htb : tb ≤ 128) {b l i : Nat} {c : Nd}
    (hInvc : Inv tb c) (hrel : childRel tb b l i c) (hltb : l < tb)
    {kb kl : Nat} {g : ReputationFlags}
    (hmem : ((kb, kl), g) ∈ entryList c) : getBit kb l tb = i := by
  cases c with
  | nil => simp [entryList] at hmem
  | mk b2 l2 f2 x2 y2 =>
    obtain ⟨hkb, hkl, _, hext⟩ := entry_mem_props htb hInvc hmem
    obtain ⟨hle, hhi⟩ := hext b2 l2 f2 x2 y2 rfl
    obtain ⟨hlt, hmask, hbit⟩ := hrel
    have hb2 : b2 < 2 ^ tb := by cases hInvc; assumption
    have hl2 : l2 ≤ tb := by cases hInvc; assumption
    have h1 : hi kb (l + 1) tb = hi b2 (l + 1) tb :=
      hi_of_hi (by omega) (by omega) hhi
    have h2 := (hi_succ_eq_iff (a := kb) (b := b2) hltb).mp h1
    rw [h2.2, hbit]

/-- Correctness of `insert_node`: the result is again a valid trie, its
root still extends any context the old root and the key both extended, and
its entry set is the old one with the key `(bits, len)` now bound to `f`. -/
theorem insertNode_spec {tb : Nat} (htb : tb ≤ 128) {bits len : Nat}
    (f : ReputationFlags) (hb : bits < 2 ^ tb) (hlen : len ≤ tb)
    (hcanon : maskPre bits len tb = bits) :
    ∀ n : Nd, Inv tb n →
      Inv tb (insertNode n bits len tb f) ∧
      (∀ d, d < len →
        (∀ b' l' f' x y, n = .mk b' l' f' x y →
          d < l' ∧ hi b' (d + 1) tb = hi bits (d + 1) tb) →
        ∀ b2 l2 f2 x2 y2, insertNode n bits len tb f = .mk b2 l2 f2 x2 y2 →
          d < l2 ∧ hi b2 (d + 1) tb = hi bits (d + 1) tb) ∧
      (∀ k g, (k, g) ∈ entryList (insertNode n bits len tb f) ↔
        (k = (bits, len) ∧ g = f) ∨
        ((k, g) ∈ entryList n ∧ k ≠ (bits, len))) := by
  intro n
  induction n with
  | nil =>
    intro _
    refine ⟨?_, ?_, ?_⟩
    · exact Inv.mk hlen hb hcanon Inv.nil Inv.nil trivial trivial
    · intro d hd _ b2 l2 f2 x2 y2 heq
      simp only [insertNode] at heq
      injection heq with h1 h2 h3 h4 h5
      subst h1; subst h2
      exact ⟨hd, rfl⟩
    · intro k g
      simp only [insertNode, entryList, optEntry, List.mem_append,
        List.mem_singleton, List.not_mem_nil, or_false, Prod.mk.injEq]
      aesop
  | mk b l f0 c0 c1 ih0 ih1 =>
    intro hInv
    have hInvOrig := hInv
    cases hInv with
    | mk hl hbb hcan hI0 hI1 hr0 hr1 =>
    obtain ⟨hcle, hcagree, hcmax⟩ :=
      cpl_spec (a := b) (b := bits) (m := min l len) htb hbb hb (by omega)
    set c := commonPrefixLen b bits (min l len) tb with hc
    clear_value c
    simp only [insertNode, ← hc]
    split_ifs with hA hB hbit0 hC hbitb0 hbit0'
    -- Case A: overwrite the payload of the existing node
    · obtain ⟨hcl, hclen⟩ := hA
      have hleq : l = len := by omega
      have hbeq : b = bits := by
        have h1 : hi b l tb = hi bits l tb := by
          have h0 := hcagree
          rw [hcl] at h0
          exact h0
        have h2 := (maskPre_eq_iff htb hbb hb hl).mpr h1
        rw [hcan, hleq, hcanon] at h2
        exact h2
      refine ⟨Inv.mk hl hbb hcan hI0 hI1 hr0 hr1, ?_, ?_⟩
      · intro d hd _ b2 l2 f2 x2 y2 heq
        injection heq with h1 h2 h3 h4 h5
        subst h1; subst h2
        exact ⟨by omega, by rw [hbeq]⟩
      · intro k g
        simp only [entryList, List.mem_append, mem_optEntry]
        constructor
        · rintro ((⟨hk, hf⟩ | h0) | h1)
          · exact Or.inl ⟨by rw [hk, hbeq, hleq], by injection hf with h; exact h.symm⟩
          · refine Or.inr ⟨Or.inl (Or.inr h0), ?_⟩
            rcases k with ⟨kb, kl⟩
            have := entry_child_long htb hI0 hr0 h0
            intro hkey
            injection hkey with h1' h2'
            omega
          · refine Or.inr ⟨Or.inr h1, ?_⟩
            rcases k with ⟨kb, kl⟩
            have := entry_child_long htb hI1 hr1 h1
            intro hkey
            injection hkey with h1' h2'
            omega
        · rintro (⟨hk, hf⟩ | ⟨((⟨hk, hf⟩ | h0) | h1), hne⟩)
          · exact Or.inl (Or.inl ⟨by rw [hk, hbeq, hleq], by rw [hf]⟩)
          · exact absurd (by rw [hk, hbeq, hleq]) hne
          · exact Or.inl (Or.inr h0)
          · exact Or.inr h1
    -- Case B, slot 0: recurse into child 0
    · have hcl : c = l := hB
      have hllen : l < len := by
        rcases Nat.lt_or_ge l len with h | h
        · exact h
        · exfalso
          have : min l len = len := by omega
          rw [this] at hcle
          exact hA ⟨hcl, by omega⟩
      have hltb : l < tb := by omega
      have hhibl : hi b l tb = hi bits l tb := by
        have h0 := hcagree
        rw [hcl] at h0
        exact h0
      have hbelow0 : ∀ b' l' f' x y, c0 = .mk b' l' f' x y →
          l < l' ∧ hi b' (l + 1) tb = hi bits (l + 1) tb := by
        intro b' l' f' x y he
        rw [he] at hr0 hI0
        obtain ⟨hlt, hmask, hbitc⟩ := hr0
        have hb' : b' < 2 ^ tb := by cases hI0; assumption
        refine ⟨hlt, ?_⟩
        apply (hi_succ_eq_iff hltb).mpr
        constructor
        · have hmb : hi b' l tb = hi b l tb := by
            rw [← maskPre_eq_iff htb hb' hbb (show l ≤ tb by omega)]
            rw [hmask, hcan]
          rw [hmb, hhibl]
        · rw [hbitc, ← hcl, hbit0]
      obtain ⟨ihInv, ihGrow, ihEnt⟩ := ih0 hI0
      have hrel0' : childRel tb b l 0 (insertNode c0 bits len tb f) := by
        cases hres : insertNode c0 bits len tb f with
        | nil => trivial
        | mk b2 l2 f2 x2 y2 =>
          obtain ⟨hdl2, hhib2⟩ := ihGrow l hllen hbelow0 b2 l2 f2 x2 y2 hres
          have hb2 : b2 < 2 ^ tb := by rw [hres] at ihInv; cases ihInv; assumption
          refine ⟨hdl2, ?_, ?_⟩
          · have h1 : hi b2 l tb = hi bits l tb := hi_of_hi (by omega) (by omega) hhib2
            have h2 : maskPre b2 l tb = maskPre b l tb :=
              (maskPre_eq_iff htb hb2 hbb (show l ≤ tb by omega)).mpr (by rw [h1, hhibl])
            rw [hcan] at h2
            exact h2
          · have := (hi_succ_eq_iff (a := b2) (b := bits) hltb).mp hhib2
            rw [this.2, ← hcl, hbit0]
      refine ⟨Inv.mk hl hbb hcan ihInv hI1 hrel0' hr1, ?_, ?_⟩
      · intro d hd hbelow b2 l2 f2 x2 y2 heq
        injection heq with h1 h2 h3 h4 h5
        subst h1; subst h2
        obtain ⟨hdl, hhib⟩ := hbelow b l f0 c0 c1 rfl
        exact ⟨hdl, hhib⟩
      · intro k g
        simp only [entryList, List.mem_append, mem_optEntry, ihEnt]
        have hroot_ne : ((b, l) : Nat × Nat) ≠ (bits, len) := by
          intro hkey; injection hkey with h1' h2'; omega
        have hc1_ne : ∀ kb kl (g' : ReputationFlags),
            ((kb, kl), g') ∈ entryList c1 → ((kb, kl) : Nat × Nat) ≠ (bits, len) := by
          intro kb kl g' hmem hkey
          injection hkey with h1' h2'
          subst h1'; subst h2'
          have := entry_child_bit htb hI1 hr1 hltb hmem
          rw [← hcl, hbit0] at this
          omega
        constructor
        · rintro ((⟨hk, hf⟩ | (⟨hk, hg⟩ | ⟨h0, hne⟩)) | h1)
          · exact Or.inr ⟨Or.inl (Or.inl ⟨hk, hf⟩), by rw [hk]; exact hroot_ne⟩
          · exact Or.inl ⟨hk, hg⟩
          · exact Or.inr ⟨Or.inl (Or.inr h0), hne⟩
          · rcases k with ⟨kb, kl⟩
            exact Or.inr ⟨Or.inr h1, hc1_ne kb kl g h1⟩
        · rintro (⟨hk, hg⟩ | ⟨((⟨hk, hf⟩ | h0) | h1), hne⟩)
          · exact Or.inl (Or.inr (Or.inl ⟨hk, hg⟩))
          · exact Or.inl (Or.inl ⟨hk, hf⟩)
          · exact Or.inl (Or.inr (Or.inr ⟨h0, hne⟩))
          · exact Or.inr h1
    -- Case B, slot 1: recurse into child 1
    · have hcl : c = l := hB
      have hbit1 : getBit bits c tb = 1 := by
        have := getBit_lt bits c tb
        omega
      have hllen : l < len := by
        rcases Nat.lt_or_ge l len with h | h
        · exact h
        · exfalso
          have : min l len = len := by omega
          rw [this] at hcle
          exact hA ⟨hcl, by omega⟩
      have hltb : l < tb := by omega
      have hhibl : hi b l tb = hi bits l tb := by
        have h0 := hcagree
        rw [hcl] at h0
        exact h0
      have hbelow1 : ∀ b' l' f' x y, c1 = .mk b' l' f' x y →
          l < l' ∧ hi b' (l + 1) tb = hi bits (l + 1) tb := by
        intro b' l' f' x y he
        rw [he] at hr1 hI1
        obtain ⟨hlt, hmask, hbitc⟩ := hr1
        have hb' : b' < 2 ^ tb := by cases hI1; assumption
        refine ⟨hlt, ?_⟩
        apply (hi_succ_eq_iff hltb).mpr
        constructor
        · have hmb : hi b' l tb = hi b l tb := by
            rw [← maskPre_eq_iff htb hb' hbb (show l ≤ tb by omega)]
            rw [hmask, hcan]
          rw [hmb, hhibl]
        · rw [hbitc, ← hcl, hbit1]
      obtain ⟨ihInv, ihGrow, ihEnt⟩ := ih1 hI1
      have hrel1' : childRel tb b l 1 (insertNode c1 bits len tb f) := by
        cases hres : insertNode c1 bits len tb f with
        | nil => trivial
        | mk b2 l2 f2 x2 y2 =>
          obtain ⟨hdl2, hhib2⟩ := ihGrow l hllen hbelow1 b2 l2 f2 x2 y2 hres
          have hb2 : b2 < 2 ^ tb := by rw [hres] at ihInv; cases ihInv; assumption
          refine ⟨hdl2, ?_, ?_⟩
          · have h1 : hi b2 l tb = hi bits l tb := hi_of_hi (by omega) (by omega) hhib2
            have h2 : maskPre b2 l tb = maskPre b l tb :=
              (maskPre_eq_iff htb hb2 hbb (show l ≤ tb by omega)).mpr (by rw [h1, hhibl])
            rw [hcan] at h2
            exact h2
          · have := (hi_succ_eq_iff (a := b2) (b := bits) hltb).mp hhib2
            rw [this.2, ← hcl, hbit1]
      refine ⟨Inv.mk hl hbb hcan hI0 ihInv hr0 hrel1', ?_, ?_⟩
      · intro d hd hbelow b2 l2 f2 x2 y2 heq
        injection heq with h1 h2 h3 h4 h5
        subst h1; subst h2
        obtain ⟨hdl, hhib⟩ := hbelow b l f0 c0 c1 rfl
        exact ⟨hdl, hhib⟩
      · intro k g
        simp only [entryList, List.mem_append, mem_optEntry, ihEnt]
        have hroot_ne : ((b, l) : Nat × Nat) ≠ (bits, len) := by
          intro hkey; injection hkey with h1' h2'; omega
        have hc0_ne : ∀ kb kl (g' : ReputationFlags),
            ((kb, kl), g') ∈ entryList c0 → ((kb, kl) : Nat × Nat) ≠ (bits, len) := by
          intro kb kl g' hmem hkey
          injection hkey with h1' h2'
          subst h1'; subst h2'
          have := entry_child_bit htb hI0 hr0 hltb hmem
          rw [← hcl, hbit1] at this
          omega
        constructor
        · rintro ((⟨hk, hf⟩ | h0) | (⟨hk, hg⟩ | ⟨h1, hne⟩))
          · exact Or.inr ⟨Or.inl (Or.inl ⟨hk, hf⟩), by rw [hk]; exact hroot_ne⟩
          · rcases k with ⟨kb, kl⟩
            exact Or.inr ⟨Or.inl (Or.inr h0), hc0_ne kb kl g h0⟩
          · exact Or.inl ⟨hk, hg⟩
          · exact Or.inr ⟨Or.inr h1, hne⟩
        · rintro (⟨hk, hg⟩ | ⟨((⟨hk, hf⟩ | h0) | h1), hne⟩)
          · exact Or.inr (Or.inl ⟨hk, hg⟩)
          · exact Or.inl (Or.inl ⟨hk, hf⟩)
          · exact Or.inl (Or.inr h0)
          · exact Or.inr (Or.inr ⟨h1, hne⟩)
    -- Case C1: the old node goes under slot 0 of a flagged split parent
    · have hclen : c = len := hC
      have hcll : c < l := by
        rcases Nat.lt_or_ge c l with h | h
        · exact h
        · exact absurd (by omega : c = l) hB
      have hcbits : maskPre bits c tb = bits := by rw [hclen, hcanon]
      have hlenl : len < l := by omega
      have hrelOld : childRel tb (maskPre bits c tb) c 0 (.mk b l f0 c0 c1) := by
        refine ⟨hcll, ?_, hbitb0⟩
        exact (maskPre_eq_iff htb hbb hb (by omega)).mpr hcagree
      refine ⟨?_, ?_, ?_⟩
      · exact Inv.mk (by omega) (by rw [hcbits]; exact hb)
          (by rw [hcbits, hclen]; exact hcanon) hInvOrig Inv.nil hrelOld trivial
      · intro d hd _ b2 l2 f2 x2 y2 heq
        injection heq with h1 h2 h3 h4 h5
        subst h1; subst h2
        refine ⟨by omega, ?_⟩
        rw [hcbits]
      · intro k g
        rcases k with ⟨kb, kl⟩
        have hold_ne : ∀ g' : ReputationFlags,
            (((kb, kl) = ((b, l) : Nat × Nat) ∧ f0 = some g') ∨
              ((kb, kl), g') ∈ entryList c0 ∨ ((kb, kl), g') ∈ entryList c1) →
            ((kb, kl) : Nat × Nat) ≠ (bits, len) := by
          intro g' hmemu hkey
          have hmem : ((kb, kl), g') ∈ entryList (Nd.mk b l f0 c0 c1) :=
            mem_entryList_mk.mpr hmemu
          injection hkey with h1' h2'
          obtain ⟨_, _, _, hext⟩ := entry_mem_props htb hInvOrig hmem
          obtain ⟨hle, _⟩ := hext b l f0 c0 c1 rfl
          omega
        simp only [mem_entryList_mk, entryList_nil, List.not_mem_nil, or_false,
          false_or]
        rw [hcbits, hclen]
        constructor
        · rintro (⟨hk, hf⟩ | hmemu)
          · injection hf with h'
            exact Or.inl ⟨hk, h'.symm⟩
          · exact Or.inr ⟨hmemu, hold_ne g hmemu⟩
        · rintro (⟨hk, hg⟩ | ⟨hmemu, hne⟩)
          · exact Or.inl ⟨hk, by rw [hg]⟩
          · exact Or.inr hmemu
    -- Case C1', the old node goes under slot 1 of a flagged split parent
    · have hclen : c = len := hC
      have hcll : c < l := by
        rcases Nat.lt_or_ge c l with h | h
        · exact h
        · exact absurd (by omega : c = l) hB
      have hbitb1 : getBit b c tb = 1 := by
        have := getBit_lt b c tb
        omega
      have hcbits : maskPre bits c tb = bits := by rw [hclen, hcanon]
      have hlenl : len < l := by omega
      have hrelOld : childRel tb (maskPre bits c tb) c 1 (.mk b l f0 c0 c1) := by
        refine ⟨hcll, ?_, hbitb1⟩
        exact (maskPre_eq_iff htb hbb hb (by omega)).mpr hcagree
      refine ⟨?_, ?_, ?_⟩
      · exact Inv.mk (by omega) (by rw [hcbits]; exact hb)
          (by rw [hcbits, hclen]; exact hcanon) Inv.nil hInvOrig trivial hrelOld
      · intro d hd _ b2 l2 f2 x2 y2 heq
        injection heq with h1 h2 h3 h4 h5
        subst h1; subst h2
        refine ⟨by omega, ?_⟩
        rw [hcbits]
      · intro k g
        rcases k with ⟨kb, kl⟩
        have hold_ne : ∀ g' : ReputationFlags,
            (((kb, kl) = ((b, l) : Nat × Nat) ∧ f0 = some g') ∨
              ((kb, kl), g') ∈ entryList c0 ∨ ((kb, kl), g') ∈ entryList c1) →
            ((kb, kl) : Nat × Nat) ≠ (bits, len) := by
          intro g' hmemu hkey
          have hmem : ((kb, kl), g') ∈ entryList (Nd.mk b l f0 c0 c1) :=
            mem_entryList_mk.mpr hmemu
          injection hkey with h1' h2'
          obtain ⟨_, _, _, hext⟩ := entry_mem_props htb hInvOrig hmem
          obtain ⟨hle, _⟩ := hext b l f0 c0 c1 rfl
          omega
        simp only [mem_entryList_mk, entryList_nil, List.not_mem_nil, or_false,
          false_or]
        rw [hcbits, hclen]
        constructor
        · rintro (⟨hk, hf⟩ | hmemu)
          · injection hf with h'
            exact Or.inl ⟨hk, h'.symm⟩
          · exact Or.inr ⟨hmemu, hold_ne g hmemu⟩
        · rintro (⟨hk, hg⟩ | ⟨hmemu, hne⟩)
          · exact Or.inl ⟨hk, by rw [hg]⟩
          · exact Or.inr hmemu
    -- Case C2: new leaf at slot 0, old node at slot 1
    · have hcll : c < l := by
        rcases Nat.lt_or_ge c l with h | h
        · exact h
        · exact absurd (by omega : c = l) hB
      have hclen : c < len := by
        rcases Nat.lt_or_ge c len with h | h
        · exact h
        · exact absurd (by omega : c = len) hC
      have hcmin : c < min l len := by omega
      have hbitne := cpl_lt_bit_ne htb hbb hb (min_le_of_left_le hl)
        (by rw [← hc]; omega)
      rw [← hc] at hbitne
      have hbitb1 : getBit b c tb = 1 := by
        have h1 := getBit_lt b c tb
        have h2 := getBit_lt bits c tb
        omega
      have hcbcan : maskPre (maskPre bits c tb) c tb = maskPre bits c tb :=
        maskPre_idem htb hb (by omega)
      have hcblt : maskPre bits c tb < 2 ^ tb := maskPre_lt htb hb (by omega)
      have hrelLeaf : childRel tb (maskPre bits c tb) c 0
          (.mk bits len (some f) .nil .nil) := ⟨hclen, rfl, hbit0'⟩
      have hrelOld : childRel tb (maskPre bits c tb) c 1 (.mk b l f0 c0 c1) := by
        refine ⟨hcll, ?_, hbitb1⟩
        exact (maskPre_eq_iff htb hbb hb (by omega)).mpr hcagree
      refine ⟨?_, ?_, ?_⟩
      · exact Inv.mk (by omega) hcblt hcbcan
          (Inv.mk hlen hb hcanon Inv.nil Inv.nil trivial trivial)
          hInvOrig hrelLeaf hrelOld
      · intro d hd hbelow b2 l2 f2 x2 y2 heq
        injection heq with h1 h2 h3 h4 h5
        subst h1; subst h2
        obtain ⟨hdl, hhib⟩ := hbelow b l f0 c0 c1 rfl
        have hdc : d + 1 ≤ c := hcmax (d + 1) (by omega) hhib
        refine ⟨by omega, ?_⟩
        exact maskPre_hi_le bits htb hb hdc (by omega)
      · intro k g
        rcases k with ⟨kb, kl⟩
        have hold_ne : ∀ g' : ReputationFlags,
            (((kb, kl) = ((b, l) : Nat × Nat) ∧ f0 = some g') ∨
              ((kb, kl), g') ∈ entryList c0 ∨ ((kb, kl), g') ∈ entryList c1) →
            ((kb, kl) : Nat × Nat) ≠ (bits, len) := by
          intro g' hmemu hkey
          have hmem : ((kb, kl), g') ∈ entryList (Nd.mk b l f0 c0 c1) :=
            mem_entryList_mk.mpr hmemu
          injection hkey with h1' h2'
          obtain ⟨_, _, _, hext⟩ := entry_mem_props htb hInvOrig hmem
          obtain ⟨hle, hhic⟩ := hext b l f0 c0 c1 rfl
          rw [h1'] at hhic
          have hmin : hi b (min l len) tb = hi bits (min l len) tb :=
            (hi_of_hi (by omega) (by omega) hhic).symm
          have := hcmax (min l len) (le_refl _) hmin
          omega
        simp only [mem_entryList_mk, entryList_nil, List.not_mem_nil, or_false,
          false_or]
        constructor
        · rintro (⟨_, habs⟩ | ⟨hk, hf⟩ | hmemu)
          · exact absurd habs (by simp)
          · injection hf with h'
            exact Or.inl ⟨hk, h'.symm⟩
          · exact Or.inr ⟨hmemu, hold_ne g hmemu⟩
        · rintro (⟨hk, hg⟩ | ⟨hmemu, hne⟩)
          · exact Or.inr (Or.inl ⟨hk, by rw [hg]⟩)
          · exact Or.inr (Or.inr hmemu)
    -- Case C2': old node at slot 0, new leaf at slot 1
    · have hcll : c < l := by
        rcases Nat.lt_or_ge c l with h | h
        · exact h
        · exact absurd (by omega : c = l) hB
      have hclen : c < len := by
        rcases Nat.lt_or_ge c len with h | h
        · exact h
        · exact absurd (by omega : c = len) hC
      have hcmin : c < min l len := by omega
      have hbitne := cpl_lt_bit_ne htb hbb hb (min_le_of_left_le hl)
        (by rw [← hc]; omega)
      rw [← hc] at hbitne
      have hbit1 : getBit bits c tb = 1 := by
        have := getBit_lt bits c tb
        omega
      have hbitb0' : getBit b c tb = 0 := by
        have h1 := getBit_lt b c tb
        omega
      have hcbcan : maskPre (maskPre bits c tb) c tb = maskPre bits c tb :=
        maskPre_idem htb hb (by omega)
      have hcblt : maskPre bits c tb < 2 ^ tb := maskPre_lt htb hb (by omega)
      have hrelLeaf : childRel tb (maskPre bits c tb) c 1
          (.mk bits len (some f) .nil .nil) := ⟨hclen, rfl, hbit1⟩
      have hrelOld : childRel tb (maskPre bits c tb) c 0 (.mk b l f0 c0 c1) := by
        refine ⟨hcll, ?_, hbitb0'⟩
        exact (maskPre_eq_iff htb hbb hb (by omega)).mpr hcagree
      refine ⟨?_, ?_, ?_⟩
      · exact Inv.mk (by omega) hcblt hcbcan hInvOrig
          (Inv.mk hlen hb hcanon Inv.nil Inv.nil trivial trivial)
          hrelOld hrelLeaf
      · intro d hd hbelow b2 l2 f2 x2 y2 heq
        injection heq with h1 h2 h3 h4 h5
        subst h1; subst h2
        obtain ⟨hdl, hhib⟩ := hbelow b l f0 c0 c1 rfl
        have hdc : d + 1 ≤ c := hcmax (d + 1) (by omega) hhib
        refine ⟨by omega, ?_⟩
        exact maskPre_hi_le bits htb hb hdc (by omega)
      · intro k g
        rcases k with ⟨kb, kl⟩
        have hold_ne : ∀ g' : ReputationFlags,
            (((kb, kl) = ((b, l) : Nat × Nat) ∧ f0 = some g') ∨
              ((kb, kl), g') ∈ entryList c0 ∨ ((kb, kl), g') ∈ entryList c1) →
            ((kb, kl) : Nat × Nat) ≠ (bits, len) := by
          intro g' hmemu hkey
          have hmem : ((kb, kl), g') ∈ entryList (Nd.mk b l f0 c0 c1) :=
            mem_entryList_mk.mpr hmemu
          injection hkey with h1' h2'
          obtain ⟨_, _, _, hext⟩ := entry_mem_props htb hInvOrig hmem
          obtain ⟨hle, hhic⟩ := hext b l f0 c0 c1 rfl
          rw [h1'] at hhic
          have hmin : hi b (min l len) tb = hi bits (min l len) tb :=
            (hi_of_hi (by omega) (by omega) hhic).symm
          have := hcmax (min l len) (le_refl _) hmin
          omega
        simp only [mem_entryList_mk, entryList_nil, List.not_mem_nil, or_false,
          false_or]
        constructor
        · rintro (⟨_, habs⟩ | hmemu | ⟨hk, hf⟩)
          · exact absurd habs (by simp)
          · exact Or.inr ⟨hmemu, hold_ne g hmemu⟩
          · injection hf with h'
            exact Or.inl ⟨hk, h'.symm⟩
        · rintro (⟨hk, hg⟩ | ⟨hmemu, hne⟩)
          · exact Or.inr (Or.inr ⟨hk, by rw [hg]⟩)
          · exact Or.inr (Or.inl hmemu)

/-! ## Lookup correctness for the trie -/

/-- The network constructor used by `bits_to_network` for each family. -/
def mkNet : Bool → Nat → Nat → IpNetwork
  | true, b, l => .v4 b l
  | false, b, l => .v6 b l

theorem netAddr_eq_maskPre {b p tb : Nat} (htb : tb ≤ 128) (hb : b < 2 ^ tb)
    (hp : p ≤ tb) : netAddr b p tb = maskPre b p tb := by
  unfold netAddr maskPre
  by_cases hp0 : p = 0
  · subst hp0
    simp only [Nat.sub_zero, if_pos rfl]
    have h1 : b >>> tb = 0 := shiftRight_eq_zero_iff.mpr hb
    rw [h1]
    simp
  · simp only [if_neg hp0]
    have : ¬ 128 ≤ tb - p := by omega
    simp [this]

theorem hereList_none {nb nl tb : Nat} {isV4 : Bool} :
    hereList nb nl tb isV4 none = [] := rfl

theorem hereList_some {nb nl tb : Nat} {isV4 : Bool} {f : ReputationFlags}
    {net : IpNetwork} (h : bitsToNetwork nb nl tb isV4 = some net) :
    hereList nb nl tb isV4 (some f) = [(net, f)] := by
  simp [hereList, h]

theorem bitsToNetwork_canonical_v4 {b l : Nat} (hb : b < 2 ^ 32)
    (hcan : maskPre b l 32 = b) (hl : l ≤ 32) :
    bitsToNetwork b l 32 true = some (.v4 b l) := by
  have hmasked : ((b >>> (32 - l)) <<< (32 - l)) % 2 ^ 32 = b := by
    by_cases hl0 : l = 0
    · subst hl0
      have hb0 : b = 0 := by rw [← hcan]; simp [maskPre]
      subst hb0
      simp
    · have hmask : b >>> (32 - l) <<< (32 - l) = maskPre b l 32 := by
        unfold maskPre
        have h' : ¬ 128 ≤ 32 - l := by omega
        simp [hl0, h']
      rw [hmask, hcan, Nat.mod_eq_of_lt hb]
  simp only [bitsToNetwork]
  rw [if_pos (trivial : True), if_pos hl, hmasked]

theorem bitsToNetwork_canonical_v6 {b l : Nat} (hb : b < 2 ^ 128)
    (hcan : maskPre b l 128 = b) (hl : l ≤ 128) :
    bitsToNetwork b l 128 false = some (.v6 b l) := by
  have hmasked : (if 128 ≤ 128 - l then 0
      else b >>> (128 - l) <<< (128 - l)) = b := by
    by_cases hl0 : l = 0
    · subst hl0
      have hb0 : b = 0 := by rw [← hcan]; simp [maskPre]
      subst hb0
      simp
    · have h' : ¬ 128 ≤ 128 - l := by omega
      rw [if_neg h']
      have hmask : b >>> (128 - l) <<< (128 - l) = maskPre b l 128 := by
        unfold maskPre
        simp [hl0, h']
      rw [hmask, hcan]
  simp only [bitsToNetwork]
  rw [if_neg (by simp : ¬ (false = true)), if_pos hl, hmasked]

/-- Lookup correctness: under the invariant, `find_matches_impl` returns
exactly the stored entries whose prefix agrees with the query. -/
theorem findMatches_spec {tb : Nat} (htb : tb ≤ 128) {isV4 : Bool}
    (hbtn : ∀ b l, b < 2 ^ tb → maskPre b l tb = b → l ≤ tb →
      bitsToNetwork b l tb isV4 = some (mkNet isV4 b l)) :
    ∀ n : Nd, Inv tb n → ∀ x, x < 2 ^ tb →
      ∀ c g, ((c, g) ∈ findMatchesImpl n x tb isV4 ↔
        ∃ kb kl, ((kb, kl), g) ∈ entryList n ∧ c = mkNet isV4 kb kl ∧
          hi x kl tb = hi kb kl tb) := by
  intro n
  induction n with
  | nil =>
    intro _ x hx c g
    simp [findMatchesImpl, entryList]
  | mk b l f0 c0 c1 ih0 ih1 =>
    intro hInv x hx c g
    have hInvOrig := hInv
    cases hInv with
    | mk hl hbb hcan hI0 hI1 hr0 hr1 =>
    obtain ⟨hcle, hcagree, hcmax⟩ :=
      cpl_spec (a := b) (b := x) (m := l) htb hbb hx hl
    set common := commonPrefixLen b x l tb with hcm
    clear_value common
    simp only [findMatchesImpl, ← hcm]
    split_ifs with hlt htbl hbit
    -- the node's prefix does not cover the query: nothing in the subtree does
    · simp only [List.not_mem_nil, false_iff]
      rintro ⟨kb, kl, hmem, hck, hcov⟩
      obtain ⟨hkb, hkl, hkcan, hext⟩ := entry_mem_props htb hInvOrig hmem
      obtain ⟨hlk, hhik⟩ := hext b l f0 c0 c1 rfl
      have h1 : hi x l tb = hi kb l tb := hi_of_hi hlk hkl hcov
      have h2 : hi b l tb = hi x l tb := by rw [h1, hhik]
      have := hcmax l (le_refl _) h2
      omega
    -- the node sits at full width: its children must be absent
    · have hxl : hi b l tb = hi x l tb := by
        have h0 : common = l := by omega
        rw [← h0]
        exact hcagree
      have hc0nil : c0 = .nil := by
        cases hc : c0 with
        | nil => rfl
        | mk b2 l2 f2 x2 y2 =>
          rw [hc] at hr0 hI0
          obtain ⟨h1, _, _⟩ := hr0
          have : l2 ≤ tb := by cases hI0; assumption
          omega
      have hc1nil : c1 = .nil := by
        cases hc : c1 with
        | nil => rfl
        | mk b2 l2 f2 x2 y2 =>
          rw [hc] at hr1 hI1
          obtain ⟨h1, _, _⟩ := hr1
          have : l2 ≤ tb := by cases hI1; assumption
          omega
      subst hc0nil; subst hc1nil
      cases f0 with
      | none =>
        rw [hereList_none]
        constructor
        · intro h
          exact absurd h (List.not_mem_nil _)
        · rintro ⟨kb, kl, hmem, _, _⟩
          rw [mem_entryList_mk] at hmem
          rcases hmem with ⟨_, habs⟩ | h0 | h1
          · exact absurd habs (by simp)
          · rw [entryList_nil] at h0
            exact absurd h0 (List.not_mem_nil _)
          · rw [entryList_nil] at h1
            exact absurd h1 (List.not_mem_nil _)
      | some fl =>
        rw [hereList_some (hbtn b l hbb hcan hl)]
        constructor
        · intro hLm
          rw [List.mem_singleton] at hLm
          injection hLm with hc hg
          refine ⟨b, l, mem_entryList_mk.mpr (Or.inl ⟨rfl, by rw [hg]⟩), hc, ?_⟩
          rw [← hxl]
        · rintro ⟨kb, kl, hmem, hck, hcov⟩
          rw [mem_entryList_mk] at hmem
          rcases hmem with ⟨hk, hfl⟩ | h0 | h1
          · rw [List.mem_singleton]
            injection hk with h1' h2'
            injection hfl with h3'
            rw [hck, h1', h2', ← h3']
          · rw [entryList_nil] at h0
            exact absurd h0 (List.not_mem_nil _)
          · rw [entryList_nil] at h1
            exact absurd h1 (List.not_mem_nil _)
    -- descend into child 0
    · have hxl : hi b l tb = hi x l tb := by
        have h0 : common = l := by omega
        rw [← h0]
        exact hcagree
      have hltb2 : l < tb := by omega
      have hOut1 : ∀ kb kl (g' : ReputationFlags),
          ((kb, kl), g') ∈ entryList c1 → ¬ hi x kl tb = hi kb kl tb := by
        intro kb kl g' hmem hcov
        have hbit1 := entry_child_bit htb hI1 hr1 hltb2 hmem
        have hlong := entry_child_long htb hI1 hr1 hmem
        obtain ⟨hkb, hkl, _, _⟩ := entry_mem_props htb hI1 hmem
        have h1 : hi x (l + 1) tb = hi kb (l + 1) tb :=
          hi_of_hi (by omega) hkl hcov
        have h2 := (hi_succ_eq_iff hltb2).mp h1
        rw [hbit, hbit1] at h2
        omega
      have hiff := ih0 hI0 x hx c g
      cases f0 with
      | none =>
        rw [hereList_none, List.nil_append, hiff]
        constructor
        · rintro ⟨kb, kl, hmem, hck, hcov⟩
          exact ⟨kb, kl, mem_entryList_mk.mpr (Or.inr (Or.inl hmem)), hck, hcov⟩
        · rintro ⟨kb, kl, hmem, hck, hcov⟩
          rw [mem_entryList_mk] at hmem
          rcases hmem with ⟨_, habs⟩ | h0 | h1
          · exact absurd habs (by simp)
          · exact ⟨kb, kl, h0, hck, hcov⟩
          · exact absurd hcov (hOut1 kb kl g h1)
      | some fl =>
        rw [hereList_some (hbtn b l hbb hcan hl), List.singleton_append,
          List.mem_cons, hiff]
        constructor
        · rintro (heq | ⟨kb, kl, hmem, hck, hcov⟩)
          · injection heq with hc hg
            exact ⟨b, l, mem_entryList_mk.mpr (Or.inl ⟨rfl, by rw [hg]⟩), hc,
              by rw [← hxl]⟩
          · exact ⟨kb, kl, mem_entryList_mk.mpr (Or.inr (Or.inl hmem)), hck, hcov⟩
        · rintro ⟨kb, kl, hmem, hck, hcov⟩
          rw [mem_entryList_mk] at hmem
          rcases hmem with ⟨hk, hfl⟩ | h0 | h1
          · left
            injection hk with h1' h2'
            injection hfl with h3'
            rw [hck, h1', h2', ← h3']
          · exact Or.inr ⟨kb, kl, h0, hck, hcov⟩
          · exact absurd hcov (hOut1 kb kl g h1)
    -- descend into child 1
    · have hxl : hi b l tb = hi x l tb := by
        have h0 : common = l := by omega
        rw [← h0]
        exact hcagree
      have hltb2 : l < tb := by omega
      have hbit1 : getBit x l tb = 1 := by
        have := getBit_lt x l tb
        omega
      have hOut0 : ∀ kb kl (g' : ReputationFlags),
          ((kb, kl), g') ∈ entryList c0 → ¬ hi x kl tb = hi kb kl tb := by
        intro kb kl g' hmem hcov
        have hbit0' := entry_child_bit htb hI0 hr0 hltb2 hmem
        have hlong := entry_child_long htb hI0 hr0 hmem
        obtain ⟨hkb, hkl, _, _⟩ := entry_mem_props htb hI0 hmem
        have h1 : hi x (l + 1) tb = hi kb (l + 1) tb :=
          hi_of_hi (by omega) hkl hcov
        have h2 := (hi_succ_eq_iff hltb2).mp h1
        rw [hbit1, hbit0'] at h2
        omega
      have hiff := ih1 hI1 x hx c g
      cases f0 with
      | none =>
        rw [hereList_none, List.nil_append, hiff]
        constructor
        · rintro ⟨kb, kl, hmem, hck, hcov⟩
          exact ⟨kb, kl, mem_entryList_mk.mpr (Or.inr (Or.inr hmem)), hck, hcov⟩
        · rintro ⟨kb, kl, hmem, hck, hcov⟩
          rw [mem_entryList_mk] at hmem
          rcases hmem with ⟨_, habs⟩ | h0 | h1
          · exact absurd habs (by simp)
          · exact absurd hcov (hOut0 kb kl g h0)
          · exact ⟨kb, kl, h1, hck, hcov⟩
      | some fl =>
        rw [hereList_some (hbtn b l hbb hcan hl), List.singleton_append,
          List.mem_cons, hiff]
        constructor
        · rintro (heq | ⟨kb, kl, hmem, hck, hcov⟩)
          · injection heq with hc hg
            exact ⟨b, l, mem_entryList_mk.mpr (Or.inl ⟨rfl, by rw [hg]⟩), hc,
              by rw [← hxl]⟩
          · exact ⟨kb, kl, mem_entryList_mk.mpr (Or.inr (Or.inr hmem)), hck, hcov⟩
        · rintro ⟨kb, kl, hmem, hck, hcov⟩
          rw [mem_entryList_mk] at hmem
          rcases hmem with ⟨hk, hfl⟩ | h0 | h1
          · left
            injection hk with h1' h2'
            injection hfl with h3'
            rw [hck, h1', h2', ← h3']
          · exact absurd hcov (hOut0 kb kl g h0)
          · exact Or.inr ⟨kb, kl, h1, hck, hcov⟩

/-! ## Order of the matches returned by the trie -/

theorem bitsToNetwork_prefixLen {b l tb : Nat} {isV4 : Bool} {net : IpNetwork}
    (h : bitsToNetwork b l tb isV4 = some net) : net.prefixLen = l := by
  unfold bitsToNetwork at h
  split_ifs at h <;> first
    | (injection h with h'; rw [← h']; rfl)
    | cases h

theorem hereList_prefixLen {nb nl tb : Nat} {isV4 : Bool}
    {f : Option ReputationFlags} {e : IpNetwork × ReputationFlags}
    (h : e ∈ hereList nb nl tb isV4 f) : e.1.prefixLen = nl := by
  cases f with
  | none => simp [hereList] at h
  | some fl =>
    unfold hereList at h
    cases hb : bitsToNetwork nb nl tb isV4 with
    | none => rw [hb] at h; simp at h
    | some net =>
      rw [hb, List.mem_singleton] at h
      subst h
      exact bitsToNetwork_prefixLen hb

theorem hereList_chain {nb nl tb : Nat} {isV4 : Bool}
    {f : Option ReputationFlags} :
    List.Chain' (· < ·) ((hereList nb nl tb isV4 f).map
      (fun e => e.1.prefixLen)) := by
  cases f with
  | none => simp [hereList]
  | some fl =>
    unfold hereList
    cases hb : bitsToNetwork nb nl tb isV4 <;> simp

/-- The match list is strictly increasing in prefix length, and every match
from a subtree is at least as long as the subtree root. -/
theorem findMatches_sorted {tb : Nat} (htb : tb ≤ 128) {isV4 : Bool} :
    ∀ n : Nd, Inv tb n → ∀ x,
      List.Chain' (· < ·)
        ((findMatchesImpl n x tb isV4).map (fun e => e.1.prefixLen)) ∧
      (∀ e ∈ findMatchesImpl n x tb isV4,
        ∀ b l f c0 c1, n = .mk b l f c0 c1 → l ≤ e.1.prefixLen) := by
  intro n
  induction n with
  | nil => intro _ x; simp [findMatchesImpl]
  | mk b l f0 c0 c1 ih0 ih1 =>
    intro hInv x
    cases hInv with
    | mk hl hbb hcan hI0 hI1 hr0 hr1 =>
    simp only [findMatchesImpl]
    split_ifs with hlt htbl hbit
    · simp
    · refine ⟨hereList_chain, ?_⟩
      intro e he b' l' f' c0' c1' heq
      injection heq with h1 h2 h3 h4 h5
      subst h2
      rw [hereList_prefixLen he]
    · obtain ⟨ihc, ihlb⟩ := ih0 hI0 x
      have hgt : ∀ e ∈ findMatchesImpl c0 x tb isV4, l < e.1.prefixLen := by
        intro e he
        cases hc : c0 with
        | nil => rw [hc] at he; simp [findMatchesImpl] at he
        | mk b2 l2 f2 x2 y2 =>
          rw [hc] at ihlb hr0
          have h1 := ihlb e (by rw [← hc]; exact he) b2 l2 f2 x2 y2 rfl
          obtain ⟨hlt2, _, _⟩ := hr0
          omega
      refine ⟨?_, ?_⟩
      · rw [List.map_append, List.chain'_append]
        refine ⟨hereList_chain, ihc, ?_⟩
        intro a ha y hy
        rcases hgl : hereList b l tb isV4 f0 with _ | ⟨e0, rest0⟩
        · rw [hgl] at ha; simp at ha
        · have hrest : rest0 = [] := by
            have := @hereList_chain b l tb isV4 f0
            cases f0 with
            | none => simp [hereList] at hgl
            | some fl =>
              unfold hereList at hgl
              cases hbn : bitsToNetwork b l tb isV4 with
              | none => rw [hbn] at hgl; cases hgl
              | some net =>
                rw [hbn] at hgl
                injection hgl with he1 he2
                exact he2.symm
          subst hrest
          rw [hgl] at ha
          simp only [List.map_cons, List.map_nil, List.getLast?_singleton,
            Option.mem_def, Option.some.injEq] at ha
          have he0mem : e0 ∈ hereList b l tb isV4 f0 := by
            rw [hgl]; exact List.mem_singleton.mpr rfl
          have he0len := hereList_prefixLen he0mem
          rw [List.head?_map] at hy
          rcases hh : (findMatchesImpl c0 x tb isV4).head? with _ | e1
          · rw [hh] at hy; cases hy
          · rw [hh] at hy
            simp only [Option.map_some, Option.mem_def, Option.some.injEq] at hy
            have he1mem : e1 ∈ findMatchesImpl c0 x tb isV4 :=
              List.mem_of_mem_head? hh
            have hyv : e1.1.prefixLen = y := by simpa using hy
            have := hgt e1 he1mem
            omega
      · intro e he b' l' f' c0' c1' heq
        injection heq with h1 h2 h3 h4 h5
        subst h2
        rw [List.mem_append] at he
        rcases he with h | h
        · rw [hereList_prefixLen h]
        · have := hgt e h
          omega
    · obtain ⟨ihc, ihlb⟩ := ih1 hI1 x
      have hgt : ∀ e ∈ findMatchesImpl c1 x tb isV4, l < e.1.prefixLen := by
        intro e he
        cases hc : c1 with
        | nil => rw [hc] at he; simp [findMatchesImpl] at he
        | mk b2 l2 f2 x2 y2 =>
          rw [hc] at ihlb hr1
          have h1 := ihlb e (by rw [← hc]; exact he) b2 l2 f2 x2 y2 rfl
          obtain ⟨hlt2, _, _⟩ := hr1
          omega
      refine ⟨?_, ?_⟩
      · rw [List.map_append, List.chain'_append]
        refine ⟨hereList_chain, ihc, ?_⟩
        intro a ha y hy
        rcases hgl : hereList b l tb isV4 f0 with _ | ⟨e0, rest0⟩
        · rw [hgl] at ha; simp at ha
        · have hrest : rest0 = [] := by
            cases f0 with
            | none => simp [hereList] at hgl
            | some fl =>
              unfold hereList at hgl
              cases hbn : bitsToNetwork b l tb isV4 with
              | none => rw [hbn] at hgl; cases hgl
              | some net =>
                rw [hbn] at hgl
                injection hgl with he1 he2
                exact he2.symm
          subst hrest
          rw [hgl] at ha
          simp only [List.map_cons, List.map_nil, List.getLast?_singleton,
            Option.mem_def, Option.some.injEq] at ha
          have he0mem : e0 ∈ hereList b l tb isV4 f0 := by
            rw [hgl]; exact List.mem_singleton.mpr rfl
          have he0len := hereList_prefixLen he0mem
          rw [List.head?_map] at hy
          rcases hh : (findMatchesImpl c1 x tb isV4).head? with _ | e1
          · rw [hh] at hy; cases hy
          · rw [hh] at hy
            simp only [Option.map_some, Option.mem_def, Option.some.injEq] at hy
            have he1mem : e1 ∈ findMatchesImpl c1 x tb isV4 :=
              List.mem_of_mem_head? hh
            have hyv : e1.1.prefixLen = y := by simpa using hy
            have := hgt e1 he1mem
            omega
      · intro e he b' l' f' c0' c1' heq
        injection heq with h1 h2 h3 h4 h5
        subst h2
        rw [List.mem_append] at he
        rcases he with h | h
        · rw [hereList_prefixLen h]
        · have := hgt e h
          omega

/-- A stored prefix of length zero sits at the root and is emitted first,
for every query of the family. -/
theorem findMatches_zero_first {tb : Nat} (htb : tb ≤ 128) (htb0 : 0 < tb)
    {isV4 : Bool}
    (hbtn : ∀ b l, b < 2 ^ tb → maskPre b l tb = b → l ≤ tb →
      bitsToNetwork b l tb isV4 = some (mkNet isV4 b l)) :
    ∀ n : Nd, Inv tb n → ∀ kb g, ((kb, 0), g) ∈ entryList n → ∀ x,
      ∃ rest, findMatchesImpl n x tb isV4 = (mkNet isV4 kb 0, g) :: rest := by
  intro n hInv kb g hmem x
  cases n with
  | nil => simp [entryList] at hmem
  | mk b l f0 c0 c1 =>
    cases hInv with
    | mk hl hbb hcan hI0 hI1 hr0 hr1 =>
    rw [mem_entryList_mk] at hmem
    have hroot : kb = b ∧ l = 0 ∧ f0 = some g := by
      rcases hmem with ⟨hk, hf⟩ | h0 | h1
      · injection hk with h1 h2
        exact ⟨h1, h2.symm, hf⟩
      · have := entry_child_long htb hI0 hr0 h0
        omega
      · have := entry_child_long htb hI1 hr1 h1
        omega
    obtain ⟨hkb, hl0, hf0⟩ := hroot
    subst hkb
    subst hl0
    subst hf0
    simp only [findMatchesImpl]
    have hc0 : commonPrefixLen kb x 0 tb = 0 := by
      unfold commonPrefixLen
      simp
    rw [hc0, if_neg (by omega : ¬ (0 : Nat) < 0),
      hereList_some (hbtn kb 0 hbb hcan (by omega)),
      if_neg (by omega : ¬ tb ≤ 0)]
    by_cases hbx : getBit x 0 tb = 0
    · rw [if_pos hbx, List.singleton_append]
      exact ⟨_, rfl⟩
    · rw [if_neg hbx, List.singleton_append]
      exact ⟨_, rfl⟩


/-! ## Canonicalisation facts -/

theorem shiftLeft_shiftRight_cancel (x s : Nat) : (x <<< s) >>> s = x := by
  rw [Nat.shiftLeft_eq, Nat.shiftRight_eq_div_pow]
  exact Nat.mul_div_cancel _ (Nat.pos_pow_of_pos _ (by omega))

theorem netAddr_idem (b p w : Nat) :
    netAddr (netAddr b p w) p w = netAddr b p w := by
  unfold netAddr
  rw [shiftLeft_shiftRight_cancel]

/-- Inserting a network equals inserting its canonical form: `insert`
masks the host bits via `network()` before touching the trie. -/
theorem insert_canonical_eq (t : IpTrie) (n : IpNetwork) (f : ReputationFlags) :
    t.insert n f = t.insert n.canonical f := by
  cases n with
  | v4 b p => simp [IpTrie.insert, IpNetwork.canonical, netAddr_idem]
  | v6 b p => simp [IpTrie.insert, IpNetwork.canonical, netAddr_idem]

theorem bitsToNetwork_canonical32 {b l : Nat} {net : IpNetwork}
    (h : bitsToNetwork b l 32 true = some net) : net.canonical = net := by
  simp only [bitsToNetwork] at h
  rw [if_pos (trivial : True)] at h
  split_ifs at h with hl
  · injection h with h'
    subst h'
    simp only [IpNetwork.canonical, IpNetwork.v4.injEq, and_true]
    have hs : (2 : Nat) ^ 32 = 2 ^ (32 - (32 - l)) * 2 ^ (32 - l) := by
      rw [← pow_add]
      congr 1
      omega
    have hm : b >>> (32 - l) <<< (32 - l) % 2 ^ 32 =
        (b >>> (32 - l) % 2 ^ (32 - (32 - l))) <<< (32 - l) := by
      rw [Nat.shiftLeft_eq, Nat.shiftLeft_eq, hs, Nat.mul_mod_mul_right]
    rw [hm]
    unfold netAddr
    rw [shiftLeft_shiftRight_cancel]

theorem bitsToNetwork_canonical128 {b l : Nat} {net : IpNetwork}
    (h : bitsToNetwork b l 128 false = some net) : net.canonical = net := by
  simp only [bitsToNetwork] at h
  rw [if_neg (by simp : ¬ (false = true))] at h
  split_ifs at h with hl h2
  · injection h with h'
    subst h'
    simp only [IpNetwork.canonical, IpNetwork.v6.injEq, and_true]
    simp [netAddr]
  · injection h with h'
    subst h'
    simp only [IpNetwork.canonical, IpNetwork.v6.injEq, and_true]
    unfold netAddr
    rw [shiftLeft_shiftRight_cancel]

theorem hereList_canonical {tb : Nat} {isV4 : Bool}
    (hcn : ∀ b l net, bitsToNetwork b l tb isV4 = some net → net.canonical = net)
    {nb nl : Nat} {f : Option ReputationFlags} {e : IpNetwork × ReputationFlags}
    (he : e ∈ hereList nb nl tb isV4 f) : e.1.canonical = e.1 := by
  cases f with
  | none => simp [hereList] at he
  | some fl =>
    unfold hereList at he
    cases hb : bitsToNetwork nb nl tb isV4 with
    | none => rw [hb] at he; simp at he
    | some net =>
      rw [hb, List.mem_singleton] at he
      subst he
      exact hcn nb nl net hb

/-- Every network returned by the descent loop is canonical, for an
arbitrary trie state. -/
theorem findMatches_canonical {tb : Nat} {isV4 : Bool}
    (hcn : ∀ b l net, bitsToNetwork b l tb isV4 = some net → net.canonical = net) :
    ∀ (n : Nd) (x : Nat) e, e ∈ findMatchesImpl n x tb isV4 →
      e.1.canonical = e.1 := by
  intro n
  induction n with
  | nil => intro x e he; simp [findMatchesImpl] at he
  | mk b l f0 c0 c1 ih0 ih1 =>
    intro x e he
    simp only [findMatchesImpl] at he
    split_ifs at he with h1 h2 h3
    · simp at he
    · exact hereList_canonical hcn he
    · rw [List.mem_append] at he
      rcases he with h | h
      · exact hereList_canonical hcn h
      · exact ih0 x e h
    · rw [List.mem_append] at he
      rcases he with h | h
      · exact hereList_canonical hcn h
      · exact ih1 x e h

/-! ## From insert sequences to the trie contents -/

theorem lastFlags_append_single (l : List (IpNetwork × ReputationFlags))
    (e : IpNetwork × ReputationFlags) (c : IpNetwork) :
    lastFlags (l ++ [e]) c = if e.1 = c then some e.2 else lastFlags l c := by
  unfold lastFlags
  rw [List.reverse_append]
  simp only [List.reverse_singleton, List.singleton_append]
  by_cases h : e.1 = c
  · rw [List.find?_cons_of_pos _ (by simp [h]), if_pos h]
    rfl
  · rw [List.find?_cons_of_neg _ (by simp [h]), if_neg h]

theorem lastFlags_mem {l : List (IpNetwork × ReputationFlags)} {c : IpNetwork}
    {g : ReputationFlags} (h : lastFlags l c = some g) : (c, g) ∈ l := by
  unfold lastFlags at h
  cases hf : l.reverse.find? (fun e => decide (e.1 = c)) with
  | none => rw [hf] at h; cases h
  | some e =>
    rw [hf] at h
    rcases e with ⟨c', g'⟩
    have h0 := List.find?_some hf
    have h1 : c' = c := by simpa using h0
    have h2 : g' = g := by injection h
    have hmem := List.mem_of_find?_eq_some hf
    rw [List.mem_reverse] at hmem
    rw [← h1, ← h2]
    exact hmem

theorem buildTrie_append_single (l : List (IpNetwork × ReputationFlags))
    (e : IpNetwork × ReputationFlags) :
    buildTrie (l ++ [e]) = (buildTrie l).insert e.1 e.2 := by
  unfold buildTrie
  rw [List.foldl_append]
  rfl

/-- Contents of a built trie: both roots are valid, and the stored entries
are exactly the most recent flags per canonical network of the family. -/
theorem buildTrie_spec (l : List (IpNetwork × ReputationFlags))
    (h : ∀ e ∈ l, e.1.Valid ∧ e.1.canonical = e.1) :
    Inv 32 (buildTrie l).v4root ∧ Inv 128 (buildTrie l).v6root ∧
    (∀ kb kl (g : ReputationFlags),
      (((kb, kl), g) ∈ entryList (buildTrie l).v4root ↔
        lastFlags l (.v4 kb kl) = some g)) ∧
    (∀ kb kl (g : ReputationFlags),
      (((kb, kl), g) ∈ entryList (buildTrie l).v6root ↔
        lastFlags l (.v6 kb kl) = some g)) := by
  induction l using List.reverseRecOn with
  | nil =>
    refine ⟨Inv.nil, Inv.nil, ?_, ?_⟩ <;>
      (intro kb kl g; simp [buildTrie, IpTrie.new, entryList, lastFlags])
  | append_singleton l e ih =>
    have hsub : ∀ e' ∈ l, e'.1.Valid ∧ e'.1.canonical = e'.1 :=
      fun e' he' => h e' (List.mem_append_left _ he')
    obtain ⟨hV, hC⟩ := h e (List.mem_append_right _ (List.mem_singleton.mpr rfl))
    obtain ⟨ih4, ih6, ihe4, ihe6⟩ := ih hsub
    rw [buildTrie_append_single]
    rcases e with ⟨n, f⟩
    cases n with
    | v4 b p =>
      have hV' : p ≤ 32 ∧ b < 2 ^ 32 := hV
      obtain ⟨hp, hb⟩ := hV'
      simp only [IpNetwork.canonical, IpNetwork.v4.injEq, and_true] at hC
      have hmask : maskPre b p 32 = b := by
        rw [← netAddr_eq_maskPre (by norm_num) hb hp]
        exact hC
      simp only [IpTrie.insert, hC]
      obtain ⟨jInv, _, jEnt⟩ :=
        insertNode_spec (show (32 : Nat) ≤ 128 by norm_num) f hb hp hmask
          (buildTrie l).v4root ih4
      refine ⟨jInv, ih6, ?_, ?_⟩
      · intro kb kl g
        rw [jEnt, lastFlags_append_single]
        by_cases hk : (IpNetwork.v4 b p) = .v4 kb kl
        · rw [if_pos hk]
          injection hk with h1 h2
          subst h1; subst h2
          constructor
          · rintro (⟨hk', hg⟩ | ⟨hm, hne⟩)
            · rw [hg]
            · exact absurd rfl hne
          · intro hg
            injection hg with hg'
            exact Or.inl ⟨rfl, hg'.symm⟩
        · rw [if_neg hk, ← ihe4 kb kl g]
          constructor
          · rintro (⟨hk', hg⟩ | ⟨hm, _⟩)
            · injection hk' with h1 h2
              exact absurd (by rw [h1, h2]) hk
            · exact hm
          · intro hm
            refine Or.inr ⟨hm, ?_⟩
            intro hk'
            injection hk' with h1 h2
            exact hk (by rw [h1, h2])
      · intro kb kl g
        rw [ihe6 kb kl g, lastFlags_append_single,
          if_neg (by simp : ¬ (IpNetwork.v4 b p = .v6 kb kl))]
    | v6 b p =>
      have hV' : p ≤ 128 ∧ b < 2 ^ 128 := hV
      obtain ⟨hp, hb⟩ := hV'
      simp only [IpNetwork.canonical, IpNetwork.v6.injEq, and_true] at hC
      have hmask : maskPre b p 128 = b := by
        rw [← netAddr_eq_maskPre (by norm_num) hb hp]
        exact hC
      simp only [IpTrie.insert, hC]
      obtain ⟨jInv, _, jEnt⟩ :=
        insertNode_spec (show (128 : Nat) ≤ 128 by norm_num) f hb hp hmask
          (buildTrie l).v6root ih6
      refine ⟨ih4, jInv, ?_, ?_⟩
      · intro kb kl g
        rw [ihe4 kb kl g, lastFlags_append_single,
          if_neg (by simp : ¬ (IpNetwork.v6 b p = .v4 kb kl))]
      · intro kb kl g
        rw [jEnt, lastFlags_append_single]
        by_cases hk : (IpNetwork.v6 b p) = .v6 kb kl
        · rw [if_pos hk]
          injection hk with h1 h2
          subst h1; subst h2
          constructor
          · rintro (⟨hk', hg⟩ | ⟨hm, hne⟩)
            · rw [hg]
            · exact absurd rfl hne
          · intro hg
            injection hg with hg'
            exact Or.inl ⟨rfl, hg'.symm⟩
        · rw [if_neg hk, ← ihe6 kb kl g]
          constructor
          · rintro (⟨hk', hg⟩ | ⟨hm, _⟩)
            · injection hk' with h1 h2
              exact absurd (by rw [h1, h2]) hk
            · exact hm
          · intro hm
            refine Or.inr ⟨hm, ?_⟩
            intro hk'
            injection hk' with h1 h2
            exact hk (by rw [h1, h2])

/-! ## Decidability instances for concrete checking -/

instance : (n : IpNetwork) → Decidable n.Valid
  | .v4 b p => (inferInstance : Decidable (p ≤ 32 ∧ b < 2 ^ 32))
  | .v6 b p => (inferInstance : Decidable (p ≤ 128 ∧ b < 2 ^ 128))

instance : (x : IpAddr) → Decidable x.Valid
  | .v4 b => (inferInstance : Decidable (b < 2 ^ 32))
  | .v6 b => (inferInstance : Decidable (b < 2 ^ 128))

instance : (c : IpNetwork) → (x : IpAddr) → Decidable (covers c x)
  | .v4 nb p, .v4 xb =>
    (inferInstance : Decidable (p ≤ 32 ∧ netAddr xb p 32 = netAddr nb p 32))
  | .v6 nb p, .v6 xb =>
    (inferInstance : Decidable (p ≤ 128 ∧ netAddr xb p 128 = netAddr nb p 128))
  | .v4 _ _, .v6 _ => (inferInstance : Decidable False)
  | .v6 _ _, .v4 _ => (inferInstance : Decidable False)

/-- Same address family of a network and an address. -/
def sameFamily : IpNetwork → IpAddr → Prop
  | .v4 _ _, .v4 _ => True
  | .v6 _ _, .v6 _ => True
  | _, _ => False

instance : (c : IpNetwork) → (x : IpAddr) → Decidable (sameFamily c x)
  | .v4 _ _, .v4 _ => (inferInstance : Decidable True)
  | .v6 _ _, .v6 _ => (inferInstance : Decidable True)
  | .v4 _ _, .v6 _ => (inferInstance : Decidable False)
  | .v6 _ _, .v4 _ => (inferInstance : Decidable False)

theorem netAddr_zero {b w : Nat} (hb : b < 2 ^ w) : netAddr b 0 w = 0 := by
  unfold netAddr
  rw [Nat.sub_zero, shiftRight_eq_zero_iff.mpr hb]
  simp

/-! ## Claim C1 -/

/-- C1: for every IP address `x` and every sequence of CIDRs inserted into
the trie, `find_all_matches x` (the core of `find_matching_cidrs_fast`)
returns `(c, f)` if and only if `c` is an inserted CIDR of `x`'s address
family whose prefix covers `x`, and `f` is the flags last inserted for `c`. -/
theorem find_matching_cidrs_fast_correct
    (l : List (IpNetwork × ReputationFlags))
    (hval : ∀ e ∈ l, e.1.Valid ∧ e.1.canonical = e.1)
    (x : IpAddr) (hx : x.Valid) (c : IpNetwork) (g : ReputationFlags) :
    ((c, g) ∈ (buildTrie l).findAllMatches x ↔
      lastFlags l c = some g ∧ covers c x) := by
  obtain ⟨hInv4, hInv6, hent4, hent6⟩ := buildTrie_spec l hval
  cases x with
  | v4 xb =>
    have hx' : xb < 2 ^ 32 := hx
    have hbtn : ∀ b l', b < 2 ^ 32 → maskPre b l' 32 = b → l' ≤ 32 →
        bitsToNetwork b l' 32 true = some (mkNet true b l') := by
      intro b l' hb hcan hl'
      rw [bitsToNetwork_canonical_v4 hb hcan hl']
      rfl
    have hspec := findMatches_spec (by norm_num) hbtn (buildTrie l).v4root
      hInv4 xb hx' c g
    rw [show (buildTrie l).findAllMatches (.v4 xb) =
      findMatchesImpl (buildTrie l).v4root xb 32 true from rfl, hspec]
    constructor
    · rintro ⟨kb, kl, hmem, hck, hcov⟩
      have hlast := (hent4 kb kl g).mp hmem
      have hmem_l : (IpNetwork.v4 kb kl, g) ∈ l := lastFlags_mem hlast
      have hv : kl ≤ 32 ∧ kb < 2 ^ 32 := (hval _ hmem_l).1
      subst hck
      refine ⟨hlast, ?_⟩
      show kl ≤ 32 ∧ netAddr xb kl 32 = netAddr kb kl 32
      refine ⟨hv.1, ?_⟩
      rw [netAddr_eq_maskPre (by norm_num) hx' hv.1,
        netAddr_eq_maskPre (by norm_num) hv.2 hv.1]
      exact (maskPre_eq_iff (by norm_num) hx' hv.2 hv.1).mpr hcov
    · rintro ⟨hlast, hcov⟩
      cases c with
      | v6 cb p => exact ((hcov : False)).elim
      | v4 cb p =>
        obtain ⟨hp, hnet⟩ := hcov
        have hmem_l : (IpNetwork.v4 cb p, g) ∈ l := lastFlags_mem hlast
        have hv : p ≤ 32 ∧ cb < 2 ^ 32 := (hval _ hmem_l).1
        refine ⟨cb, p, (hent4 cb p g).mpr hlast, rfl, ?_⟩
        rw [netAddr_eq_maskPre (by norm_num) hx' hv.1,
          netAddr_eq_maskPre (by norm_num) hv.2 hv.1] at hnet
        exact (maskPre_eq_iff (by norm_num) hx' hv.2 hv.1).mp hnet
  | v6 xb =>
    have hx' : xb < 2 ^ 128 := hx
    have hbtn : ∀ b l', b < 2 ^ 128 → maskPre b l' 128 = b → l' ≤ 128 →
        bitsToNetwork b l' 128 false = some (mkNet false b l') := by
      intro b l' hb hcan hl'
      rw [bitsToNetwork_canonical_v6 hb hcan hl']
      rfl
    have hspec := findMatches_spec (by norm_num) hbtn (buildTrie l).v6root
      hInv6 xb hx' c g
    rw [show (buildTrie l).findAllMatches (.v6 xb) =
      findMatchesImpl (buildTrie l).v6root xb 128 false from rfl, hspec]
    constructor
    · rintro ⟨kb, kl, hmem, hck, hcov⟩
      have hlast := (hent6 kb kl g).mp hmem
      have hmem_l : (IpNetwork.v6 kb kl, g) ∈ l := lastFlags_mem hlast
      have hv : kl ≤ 128 ∧ kb < 2 ^ 128 := (hval _ hmem_l).1
      subst hck
      refine ⟨hlast, ?_⟩
      show kl ≤ 128 ∧ netAddr xb kl 128 = netAddr kb kl 128
      refine ⟨hv.1, ?_⟩
      rw [netAddr_eq_maskPre (by norm_num) hx' hv.1,
        netAddr_eq_maskPre (by norm_num) hv.2 hv.1]
      exact (maskPre_eq_iff (by norm_num) hx' hv.2 hv.1).mpr hcov
    · rintro ⟨hlast, hcov⟩
      cases c with
      | v4 cb p => exact ((hcov : False)).elim
      | v6 cb p =>
        obtain ⟨hp, hnet⟩ := hcov
        have hmem_l : (IpNetwork.v6 cb p, g) ∈ l := lastFlags_mem hlast
        have hv : p ≤ 128 ∧ cb < 2 ^ 128 := (hval _ hmem_l).1
        refine ⟨cb, p, (hent6 cb p g).mpr hlast, rfl, ?_⟩
        rw [netAddr_eq_maskPre (by norm_num) hx' hv.1,
          netAddr_eq_maskPre (by norm_num) hv.2 hv.1] at hnet
        exact (maskPre_eq_iff (by norm_num) hx' hv.2 hv.1).mp hnet

/-- Sample flag values for concrete witnesses. -/
def fProxyOnly : ReputationFlags :=
  { ReputationFlags.defaultFlags with proxy := true }

def fVpnOnly : ReputationFlags :=
  { ReputationFlags.defaultFlags with vpn := true }

/-- Witness for C1 at a concrete trie, query and network. -/
theorem find_matching_cidrs_fast_correct_witness :
    ((∀ e ∈ ([(IpNetwork.v4 (10 <<< 24) 8, fProxyOnly)] :
        List (IpNetwork × ReputationFlags)), e.1.Valid ∧ e.1.canonical = e.1) ∧
      (IpAddr.v4 ((10 <<< 24) + 5)).Valid) ∧
    ((IpNetwork.v4 (10 <<< 24) 8, fProxyOnly) ∈
        (buildTrie [(IpNetwork.v4 (10 <<< 24) 8, fProxyOnly)]).findAllMatches
          (.v4 ((10 <<< 24) + 5)) ↔
      lastFlags [(IpNetwork.v4 (10 <<< 24) 8, fProxyOnly)]
          (.v4 (10 <<< 24) 8) = some fProxyOnly ∧
        covers (.v4 (10 <<< 24) 8) (.v4 ((10 <<< 24) + 5))) :=
  ⟨⟨by decide, by decide⟩,
    find_matching_cidrs_fast_correct _ (by decide) _ (by decide) _ _⟩

/-! ## Claim C7 -/

/-- C7: the list returned by `find_all_matches` is sorted by ascending
prefix length, and a stored prefix of length zero covers every address of
its family and is the first element whenever present. -/
theorem find_all_matches_sorted_and_zero_first
    (l : List (IpNetwork × ReputationFlags))
    (hval : ∀ e ∈ l, e.1.Valid ∧ e.1.canonical = e.1)
    (x : IpAddr) (hx : x.Valid) :
    List.Sorted (· ≤ ·)
      (((buildTrie l).findAllMatches x).map (fun e => e.1.prefixLen)) ∧
    (∀ c g, c.prefixLen = 0 → lastFlags l c = some g → sameFamily c x →
      covers c x ∧ ((buildTrie l).findAllMatches x).head? = some (c, g)) := by
  obtain ⟨hInv4, hInv6, hent4, hent6⟩ := buildTrie_spec l hval
  cases x with
  | v4 xb =>
    have hx' : xb < 2 ^ 32 := hx
    constructor
    · have hchain := (@findMatches_sorted 32 (by norm_num) true
        (buildTrie l).v4root hInv4 xb).1
      have hpair := (List.chain'_iff_pairwise.mp hchain)
      exact hpair.imp Nat.le_of_lt
    · intro c g hp0 hlast hfam
      cases c with
      | v6 cb p => exact ((hfam : False)).elim
      | v4 cb p =>
        have hp0' : p = 0 := hp0
        subst hp0'
        have hmem_l : (IpNetwork.v4 cb 0, g) ∈ l := lastFlags_mem hlast
        have hv : (0 : Nat) ≤ 32 ∧ cb < 2 ^ 32 := (hval _ hmem_l).1
        refine ⟨⟨by omega, ?_⟩, ?_⟩
        · rw [netAddr_zero hx', netAddr_zero hv.2]
        · have hbtn : ∀ b l', b < 2 ^ 32 → maskPre b l' 32 = b → l' ≤ 32 →
              bitsToNetwork b l' 32 true = some (mkNet true b l') := by
            intro b l' hb hcan hl'
            rw [bitsToNetwork_canonical_v4 hb hcan hl']
            rfl
          have hmem := (hent4 cb 0 g).mpr hlast
          obtain ⟨rest, hres⟩ := findMatches_zero_first (by norm_num)
            (by norm_num) hbtn (buildTrie l).v4root hInv4 cb g hmem xb
          rw [show (buildTrie l).findAllMatches (.v4 xb) =
            findMatchesImpl (buildTrie l).v4root xb 32 true from rfl, hres]
          rfl
  | v6 xb =>
    have hx' : xb < 2 ^ 128 := hx
    constructor
    · have hchain := (@findMatches_sorted 128 (by norm_num) false
        (buildTrie l).v6root hInv6 xb).1
      have hpair := (List.chain'_iff_pairwise.mp hchain)
      exact hpair.imp Nat.le_of_lt
    · intro c g hp0 hlast hfam
      cases c with
      | v4 cb p => exact ((hfam : False)).elim
      | v6 cb p =>
        have hp0' : p = 0 := hp0
        subst hp0'
        have hmem_l : (IpNetwork.v6 cb 0, g) ∈ l := lastFlags_mem hlast
        have hv : (0 : Nat) ≤ 128 ∧ cb < 2 ^ 128 := (hval _ hmem_l).1
        refine ⟨⟨by omega, ?_⟩, ?_⟩
        · rw [netAddr_zero hx', netAddr_zero hv.2]
        · have hbtn : ∀ b l', b < 2 ^ 128 → maskPre b l' 128 = b → l' ≤ 128 →
              bitsToNetwork b l' 128 false = some (mkNet false b l') := by
            intro b l' hb hcan hl'
            rw [bitsToNetwork_canonical_v6 hb hcan hl']
            rfl
          have hmem := (hent6 cb 0 g).mpr hlast
          obtain ⟨rest, hres⟩ := findMatches_zero_first (by norm_num)
            (by norm_num) hbtn (buildTrie l).v6root hInv6 cb g hmem xb
          rw [show (buildTrie l).findAllMatches (.v6 xb) =
            findMatchesImpl (buildTrie l).v6root xb 128 false from rfl, hres]
          rfl

/-- Witness for C7 at a concrete build containing a zero-length prefix. -/
theorem find_all_matches_sorted_and_zero_first_witness :
    List.Sorted (· ≤ ·)
      (((buildTrie [(IpNetwork.v4 0 0, fVpnOnly),
          (IpNetwork.v4 (10 <<< 24) 8, fProxyOnly)]).findAllMatches
        (.v4 ((10 <<< 24) + 3))).map (fun e => e.1.prefixLen)) ∧
    (covers (.v4 0 0) (.v4 ((10 <<< 24) + 3)) ∧
      ((buildTrie [(IpNetwork.v4 0 0, fVpnOnly),
          (IpNetwork.v4 (10 <<< 24) 8, fProxyOnly)]).findAllMatches
        (.v4 ((10 <<< 24) + 3))).head? = some (.v4 0 0, fVpnOnly)) :=
  ⟨(find_all_matches_sorted_and_zero_first _ (by decide) _ (by decide)).1,
    (find_all_matches_sorted_and_zero_first _ (by decide) _ (by decide)).2
      (.v4 0 0) fVpnOnly (by decide) (by decide) trivial⟩

/-! ## Claim C9 -/

/-- C9: trie insertion canonicalises its argument — inserting a network
with nonzero host bits answers every query exactly as inserting its
canonical form; and every network returned by `find_all_matches` has all
host bits zero. -/
theorem trie_insert_canonicalises :
    (∀ (t : IpTrie) (n : IpNetwork) (f : ReputationFlags),
      n.canonical ≠ n →
      ∀ x, (t.insert n f).findAllMatches x =
        (t.insert n.canonical f).findAllMatches x) ∧
    (∀ (t : IpTrie) (x : IpAddr) (e : IpNetwork × ReputationFlags),
      e ∈ t.findAllMatches x → e.1.canonical = e.1) := by
  constructor
  · intro t n f _ x
    rw [insert_canonical_eq]
  · intro t x e he
    cases x with
    | v4 xb =>
      exact findMatches_canonical
        (fun b l net h => bitsToNetwork_canonical32 h) t.v4root xb e he
    | v6 xb =>
      exact findMatches_canonical
        (fun b l net h => bitsToNetwork_canonical128 h) t.v6root xb e he

/-- Witness for C9 at a network with nonzero host bits. -/
theorem trie_insert_canonicalises_witness :
    ((IpTrie.new.insert (.v4 ((10 <<< 24) + 77) 8) fProxyOnly).findAllMatches
        (.v4 ((10 <<< 24) + 1)) =
      (IpTrie.new.insert ((IpNetwork.v4 ((10 <<< 24) + 77) 8).canonical)
        fProxyOnly).findAllMatches (.v4 ((10 <<< 24) + 1))) ∧
    ((IpNetwork.v4 (10 <<< 24) 8).canonical = .v4 (10 <<< 24) 8) :=
  ⟨trie_insert_canonicalises.1 IpTrie.new _ fProxyOnly (by decide) _,
    trie_insert_canonicalises.2
      (buildTrie [(.v4 (10 <<< 24) 8, fProxyOnly)])
      (.v4 ((10 <<< 24) + 1)) (.v4 (10 <<< 24) 8, fProxyOnly) (by decide)⟩

/-! ## Entry strings

The store parses entry strings with `str::parse::<IpNetwork>` and
`str::parse::<IpAddr>`. `EntryStr` embeds the textual forms those parsers
distinguish: a dotted-quad v4 literal, a v4 CIDR, the canonical v6 literal
of an address, a v6 CIDR, and an opaque string that parses as neither.
The `ipnetwork` crate parses a bare address as a full-width network
(the prefix defaults to the family width), and accepts non-zero host
bits without masking. -/

inductive EntryStr where
  | v4lit (a b c d : Nat)
  | v4cidr (a b c d p : Nat)
  | v6lit (addr : Nat)
  | v6cidr (addr p : Nat)
  | other (s : String)
deriving DecidableEq, Repr

def octetsToNat (a b c d : Nat) : Nat := ((a * 256 + b) * 256 + c) * 256 + d

/-- Mirrors `entry.parse::<IpNetwork>()`: a bare address parses as a
full-width network, a CIDR parses when its prefix fits the family. -/
def parseIpNetwork : EntryStr → Option IpNetwork
  | .v4lit a b c d =>
    if a < 256 ∧ b < 256 ∧ c < 256 ∧ d < 256 then
      some (.v4 (octetsToNat a b c d) 32)
    else none
  | .v4cidr a b c d p =>
    if a < 256 ∧ b < 256 ∧ c < 256 ∧ d < 256 ∧ p ≤ 32 then
      some (.v4 (octetsToNat a b c d) p)
    else none
  | .v6lit a => if a < 2 ^ 128 then some (.v6 a 128) else none
  | .v6cidr a p => if a < 2 ^ 128 ∧ p ≤ 128 then some (.v6 a p) else none
  | .other _ => none

/-- Mirrors `entry.parse::<IpAddr>()`: only bare address literals parse. -/
def parseIpAddr : EntryStr → Option IpAddr
  | .v4lit a b c d =>
    if a < 256 ∧ b < 256 ∧ c < 256 ∧ d < 256 then
      some (.v4 (octetsToNat a b c d))
    else none
  | .v6lit a => if a < 2 ^ 128 then some (.v6 a) else none
  | _ => none

/-- The canonical textual form of a stored exact-IP key
(`Ipv4Addr::to_string` on the key octets). -/
def v4StrOfNat (k : Nat) : EntryStr :=
  .v4lit (k / 2 ^ 24 % 256) (k / 2 ^ 16 % 256) (k / 2 ^ 8 % 256) (k % 256)

/-- The canonical textual form of a network (`IpNetwork::to_string`). -/
def netToStr : IpNetwork → EntryStr
  | .v4 b p => .v4cidr (b / 2 ^ 24 % 256) (b / 2 ^ 16 % 256) (b / 2 ^ 8 % 256)
      (b % 256) p
  | .v6 b p => .v6cidr b p

/-- The canonical textual form of an address (`IpAddr::to_string`). -/
def ipToStr : IpAddr → EntryStr
  | .v4 b => v4StrOfNat b
  | .v6 b => .v6lit b

/-! ## The keyed store (`src/db/lmdb.rs`)

Each LMDB partition is an association list with pairwise-distinct keys.
`put` overwrites in place or appends; `delete` removes the key. The store
also holds the singleton metadata record and the atomically-swapped trie. -/

def Tbl (K : Type) : Type := List (K × ReputationFlags)

instance {K : Type} [DecidableEq K] : DecidableEq (Tbl K) :=
  inferInstanceAs (DecidableEq (List (K × ReputationFlags)))

def tget {K : Type} [DecidableEq K] (t : Tbl K) (k : K) :
    Option ReputationFlags :=
  (List.find? (fun e => decide (e.1 = k)) t).map (·.2)

def tput {K : Type} [DecidableEq K] : Tbl K → K → ReputationFlags → Tbl K
  | [], k, f => [(k, f)]
  | (k', f') :: rest, k, f =>
    if k' = k then (k, f) :: rest else (k', f') :: tput rest k f

def tdel {K : Type} [DecidableEq K] (t : Tbl K) (k : K) : Tbl K :=
  List.filter (fun e => decide (e.1 ≠ k)) t

structure Metadata where
  last_sync : Option Int
  csv_hash : Option String
  record_count : Nat
deriving DecidableEq, Repr

instance : Inhabited Metadata := ⟨⟨none, none, 0⟩⟩

structure DbState where
  ip_v4 : Tbl Nat
  ip_v6 : Tbl Nat
  cidr_v4 : Tbl (Nat × Nat)
  cidr_v6 : Tbl (Nat × Nat)
  meta : Option Metadata
  trie : IpTrie
deriving DecidableEq

/-- A freshly opened store over an empty directory. -/
def DbState.empty : DbState := ⟨[], [], [], [], none, IpTrie.new⟩

def insertIp (db : DbState) (ip : IpAddr) (f : ReputationFlags) : DbState :=
  match ip with
  | .v4 b => { db with ip_v4 := tput db.ip_v4 b f }
  | .v6 b => { db with ip_v6 := tput db.ip_v6 b f }

/-- Mirrors `cidr_to_key`: network address octets followed by the prefix. -/
def cidrToKey (n : IpNetwork) : Nat × Nat := (n.netBits, n.prefixLen)

def insertCidr (db : DbState) (n : IpNetwork) (f : ReputationFlags) : DbState :=
  match n with
  | .v4 _ _ => { db with cidr_v4 := tput db.cidr_v4 (cidrToKey n) f }
  | .v6 _ _ => { db with cidr_v6 := tput db.cidr_v6 (cidrToKey n) f }

/-- Mirrors `Database::insert_record`: full-width networks and bare
addresses go to the exact tables, shorter networks to the CIDR tables,
unparseable entries are ignored. -/
def insertRecord (db : DbState) (entry : EntryStr) (f : ReputationFlags) :
    DbState :=
  match parseIpNetwork entry with
  | some n =>
    if n.prefixLen = n.rawIp.maxPrefixLen then insertIp db n.rawIp f
    else insertCidr db n f
  | none =>
    match parseIpAddr entry with
    | some ip => insertIp db ip f
    | none => db

def deleteIp (db : DbState) (ip : IpAddr) : Bool × DbState :=
  match ip with
  | .v4 b => ((tget db.ip_v4 b).isSome, { db with ip_v4 := tdel db.ip_v4 b })
  | .v6 b => ((tget db.ip_v6 b).isSome, { db with ip_v6 := tdel db.ip_v6 b })

def deleteCidr (db : DbState) (n : IpNetwork) : Bool × DbState :=
  match n with
  | .v4 _ _ =>
    ((tget db.cidr_v4 (cidrToKey n)).isSome,
      { db with cidr_v4 := tdel db.cidr_v4 (cidrToKey n) })
  | .v6 _ _ =>
    ((tget db.cidr_v6 (cidrToKey n)).isSome,
      { db with cidr_v6 := tdel db.cidr_v6 (cidrToKey n) })

/-- Mirrors `Database::delete_record`: same routing as insertion; an
unparseable entry reports `false` and changes nothing. -/
def deleteRecord (db : DbState) (entry : EntryStr) : Bool × DbState :=
  match parseIpNetwork entry with
  | some n =>
    if n.prefixLen = n.rawIp.maxPrefixLen then deleteIp db n.rawIp
    else deleteCidr db n
  | none =>
    match parseIpAddr entry with
    | some ip => deleteIp db ip
    | none => (false, db)

/-- Mirrors `Database::clear_all`: empties the four entry partitions and
preserves metadata. -/
def clearAll (db : DbState) : DbState :=
  { db with ip_v4 := [], ip_v6 := [], cidr_v4 := [], cidr_v6 := [] }

def setMetadata (db : DbState) (m : Metadata) : DbState := { db with meta := some m }

def getMetadata (db : DbState) : Metadata := db.meta.getD default

def dbLookupIp (db : DbState) (ip : IpAddr) : Option ReputationFlags :=
  match ip with
  | .v4 b => tget db.ip_v4 b
  | .v6 b => tget db.ip_v6 b

/-- Mirrors `Database::lookup_ips_batch`: one shared snapshot, one probe
per address. -/
def dbLookupIpsBatch (db : DbState) (ips : List IpAddr) :
    List (Option ReputationFlags) :=
  ips.map (dbLookupIp db)

def findMatchingCidrsFast (db : DbState) (ip : IpAddr) :
    List (IpNetwork × ReputationFlags) :=
  db.trie.findAllMatches ip

def swapTrie (db : DbState) (t : IpTrie) : DbState := { db with trie := t }

/-- Mirrors `key_to_cidr` for 5-byte keys (`IpNetwork::new` fails iff the
prefix exceeds 32). -/
def keyToCidr4 (k p : Nat) : Option IpNetwork :=
  if p ≤ 32 then some (.v4 k p) else none

/-- Mirrors `key_to_cidr` for 17-byte keys. -/
def keyToCidr6 (k p : Nat) : Option IpNetwork :=
  if p ≤ 128 then some (.v6 k p) else none

/-- Mirrors `Database::rebuild_trie`: fold both CIDR partitions into a
fresh trie and install it. -/
def rebuildTrie (db : DbState) : DbState :=
  let t1 := db.cidr_v4.foldl
    (fun t e =>
      match keyToCidr4 e.1.1 e.1.2 with
      | some n => t.insert n e.2
      | none => t) IpTrie.new
  let t2 := db.cidr_v6.foldl
    (fun t e =>
      match keyToCidr6 e.1.1 e.1.2 with
      | some n => t.insert n e.2
      | none => t) t1
  { db with trie := t2 }

/-- Mirrors `Database::get_all_entries`: canonical strings of all rows of
the four partitions; CIDR keys that fail to decode are skipped. -/
def getAllEntries (db : DbState) : List (EntryStr × ReputationFlags) :=
  db.ip_v4.map (fun e => (v4StrOfNat e.1, e.2)) ++
  db.ip_v6.map (fun e => (EntryStr.v6lit e.1, e.2)) ++
  db.cidr_v4.filterMap
    (fun e => (keyToCidr4 e.1.1 e.1.2).map (fun n => (netToStr n, e.2))) ++
  db.cidr_v6.filterMap
    (fun e => (keyToCidr6 e.1.1 e.1.2).map (fun n => (netToStr n, e.2)))

/-! ## The importer (`src/sync/importer.rs`)

Transaction batching (`BATCH_COMMIT_SIZE`) only bounds transaction sizes
and is invisible in a crash-free model. -/

structure CsvRecord where
  ip : EntryStr
  flags : ReputationFlags
deriving DecidableEq

/-- Mirrors `do_full_import`: clear, insert every record while building a
fresh trie from every entry that parses as a network, write metadata,
swap the trie. -/
def doFullImport (db : DbState) (records : List CsvRecord) (hash : String)
    (now : Int) : DbState × Nat :=
  let count := records.length
  let db1 := clearAll db
  let st := records.foldl
    (fun (st : DbState × IpTrie) r =>
      let d := insertRecord st.1 r.ip r.flags
      let t := match parseIpNetwork r.ip with
        | some n => st.2.insert n r.flags
        | none => st.2
      (d, t))
    (db1, IpTrie.new)
  let db3 := setMetadata st.1 ⟨some now, some hash, count⟩
  (swapTrie db3 st.2, count)

/-- Association lookup into the `existing` snapshot (the `HashMap` built
from `get_all_entries`, whose keys are pairwise distinct). -/
def lookupStr (l : List (EntryStr × ReputationFlags)) (s : EntryStr) :
    Option ReputationFlags :=
  (List.find? (fun e => decide (e.1 = s)) l).map (·.2)

/-- Mirrors `do_incremental_import`: diff the new records against the
`get_all_entries` snapshot, insert added/changed entries, delete stale
ones, write metadata, rebuild the trie. Returns the state and the
`(added, updated, deleted)` counts. -/
def doIncrementalImport (db : DbState) (newRecords : List CsvRecord)
    (hash : String) (now : Int) : DbState × (Nat × Nat × Nat) :=
  let existing := getAllEntries db
  let newKeys := fun s => newRecords.any (fun r => decide (r.ip = s))
  let step1 := newRecords.foldl
    (fun (st : DbState × Nat × Nat) r =>
      match lookupStr existing r.ip with
      | none => (insertRecord st.1 r.ip r.flags, st.2.1 + 1, st.2.2)
      | some ef =>
        if ef ≠ r.flags then (insertRecord st.1 r.ip r.flags, st.2.1, st.2.2 + 1)
        else st)
    (db, 0, 0)
  let step2 := existing.foldl
    (fun (st : DbState × Nat) e =>
      if newKeys e.1 then st
      else ((deleteRecord st.1 e.1).2, st.2 + 1))
    (step1.1, 0)
  let db3 := setMetadata step2.1 ⟨some now, some hash, newRecords.length⟩
  (rebuildTrie db3, (step1.2.1, step1.2.2, step2.2))

/-! ## The lookup engine (`src/ip/matcher.rs`) -/

inductive LookupError where
  | invalidIp (s : EntryStr)
  | invalidCidr (s : EntryStr)
deriving DecidableEq, Repr

structure MatchedEntry where
  entry : EntryStr
  flags : ReputationFlags
deriving DecidableEq, Repr

structure LookupResult where
  found : Bool
  query : EntryStr
  flags : ReputationFlags
  matched_entries : List MatchedEntry
deriving DecidableEq, Repr

instance {e a : Type} [DecidableEq e] [DecidableEq a] :
    DecidableEq (Except e a) := fun x y =>
  match x, y with
  | .ok u, .ok v =>
    if h : u = v then isTrue (by rw [h])
    else isFalse (fun hc => h (by injection hc))
  | .error u, .error v =>
    if h : u = v then isTrue (by rw [h])
    else isFalse (fun hc => h (by injection hc))
  | .ok _, .error _ => isFalse (fun hc => Except.noConfusion hc)
  | .error _, .ok _ => isFalse (fun hc => Except.noConfusion hc)

/-- The per-element result assembly: the identical body of `lookup_ip`
and of the per-element closure in `lookup_ips_batch` (exact-probe entry
first, then the trie matches, flags merged in order). -/
def assemble (db : DbState) (ip : IpAddr) (dbr : Option ReputationFlags)
    (q : EntryStr) : LookupResult :=
  let st0 : List MatchedEntry × ReputationFlags :=
    match dbr with
    | some f => ([⟨ipToStr ip, f⟩], ReputationFlags.defaultFlags.merge f)
    | none => ([], ReputationFlags.defaultFlags)
  let st := (findMatchingCidrsFast db ip).foldl
    (fun (acc : List MatchedEntry × ReputationFlags) nf =>
      (acc.1 ++ [⟨netToStr nf.1, nf.2⟩], acc.2.merge nf.2)) st0
  ⟨!st.1.isEmpty, q, st.2, st.1⟩

/-- Mirrors `lookup_ip`: parse, probe the exact table, walk the trie,
merge flags in order. -/
def lookupIp (db : DbState) (s : EntryStr) : Except LookupError LookupResult :=
  match parseIpAddr s with
  | none => .error (.invalidIp s)
  | some ip => .ok (assemble db ip (dbLookupIp db ip) s)

/-- The short-circuiting parse of the whole batch
(`collect::<Result<Vec<_>, _>>()`). -/
def parseIps : List EntryStr → Except LookupError (List IpAddr)
  | [] => .ok []
  | s :: rest =>
    match parseIpAddr s with
    | none => .error (.invalidIp s)
    | some ip =>
      match parseIps rest with
      | .ok ips => .ok (ip :: ips)
      | .error e => .error e

/-- Mirrors `lookup_ips_batch`: parse all inputs, one shared store
snapshot, then assemble each element's result. -/
def lookupIpsBatch (db : DbState) (ss : List EntryStr) :
    Except LookupError (List LookupResult) :=
  match parseIps ss with
  | .error e => .error e
  | .ok ips =>
    let dbResults := dbLookupIpsBatch db ips
    .ok (((ips.zip dbResults).zip ss).map (fun t =>
      assemble db t.1.1 t.1.2 t.2))

/-! ## The CSV parser (`src/sync/importer.rs`)

Modelled at the cell level: a header row and data rows of string cells.
Column 0 is the raw entry string. -/

/-- Whitespace as trimmed by `str::trim`, at the ASCII level. -/
def isWsp (c : Char) : Bool := c = ' ' || c = '\t' || c = '\n' || c = '\r'

/-- Case folding as in `str::to_lowercase`, at the ASCII level. -/
def asciiLower (c : Char) : Char :=
  if 'A' ≤ c ∧ c ≤ 'Z' then Char.ofNat (c.toNat + 32) else c

def strTrim (s : String) : String :=
  String.mk (((s.data.dropWhile isWsp).reverse.dropWhile isWsp).reverse)

def strToLower (s : String) : String := String.mk (s.data.map asciiLower)

/-- Mirrors `parse_bool`: trim, lowercase, compare against the three
accepted truthy strings. -/
def parseBool (s : String) : Bool :=
  strToLower (strTrim s) = "true" || strToLower (strTrim s) = "1" ||
    strToLower (strTrim s) = "yes"

structure HeaderIndices where
  anonblock : Option Nat
  proxy : Option Nat
  vpn : Option Nat
  cdn : Option Nat
  public_wifi : Option Nat
  rangeblock : Option Nat
  school_block : Option Nat
  tor : Option Nat
  webhost : Option Nat
deriving DecidableEq, Repr

/-- Mirrors `headers.iter().position(|h| h == name)`. -/
def findIndexS (headers : List String) (name : String) : Option Nat :=
  headers.findIdx? (fun h => decide (h = name))

def HeaderIndices.fromHeaders (headers : List String) : HeaderIndices :=
  ⟨findIndexS headers "anonblock", findIndexS headers "proxy",
   findIndexS headers "vpn", findIndexS headers "cdn",
   findIndexS headers "public-wifi", findIndexS headers "rangeblock",
   findIndexS headers "school-block", findIndexS headers "tor",
   findIndexS headers "webhost"⟩

/-- The `get_bool` closure inside `extract_flags`. -/
def getBoolAt (row : List String) (idx : Option Nat) : Bool :=
  ((idx.bind (fun i => row.get? i)).map parseBool).getD false

def HeaderIndices.extractFlags (hi : HeaderIndices) (row : List String) :
    ReputationFlags :=
  ⟨getBoolAt row hi.anonblock, getBoolAt row hi.proxy, getBoolAt row hi.vpn,
   getBoolAt row hi.cdn, getBoolAt row hi.public_wifi,
   getBoolAt row hi.rangeblock, getBoolAt row hi.school_block,
   getBoolAt row hi.tor, getBoolAt row hi.webhost⟩

/-- A parsed CSV record before entry-string interpretation. -/
structure RawRecord where
  ip : String
  flags : ReputationFlags
deriving DecidableEq, Repr

/-- Mirrors `parse_csv_parallel` on pre-split rows: rows whose column 0 is
missing or empty yield no record. -/
def parseCsv (headers : List String) (rows : List (List String)) :
    List RawRecord :=
  let hi := HeaderIndices.fromHeaders headers
  rows.filterMap (fun row =>
    match row.get? 0 with
    | none => none
    | some ip => if ip = "" then none else some ⟨ip, hi.extractFlags row⟩)

/-! ## Claim C5 -/

/-- C5: `insert_record` routes full-width networks and bare addresses to
the exact-IP table under the raw address key, routes shorter networks to
the CIDR table under the canonical key (network address with host bits
zeroed, then the prefix), and silently accepts unparseable entries
without touching any partition. -/
theorem insert_record_routing (db : DbState) (e : EntryStr)
    (f : ReputationFlags) :
    (∀ n, parseIpNetwork e = some n → n.prefixLen = n.rawIp.maxPrefixLen →
      ((∀ b, n.rawIp = .v4 b →
          insertRecord db e f = { db with ip_v4 := tput db.ip_v4 b f }) ∧
       (∀ b, n.rawIp = .v6 b →
          insertRecord db e f = { db with ip_v6 := tput db.ip_v6 b f }))) ∧
    (∀ n, parseIpNetwork e = some n → ¬ n.prefixLen = n.rawIp.maxPrefixLen →
      ((∀ b p, n = .v4 b p → insertRecord db e f =
          { db with cidr_v4 := tput db.cidr_v4 (netAddr b p 32, p) f }) ∧
       (∀ b p, n = .v6 b p → insertRecord db e f =
          { db with cidr_v6 := tput db.cidr_v6 (netAddr b p 128, p) f }))) ∧
    (parseIpNetwork e = none ∧ parseIpAddr e = none →
      insertRecord db e f = db) := by
  refine ⟨?_, ?_, ?_⟩
  · intro n hn hmax
    constructor
    · intro b hb
      simp only [insertRecord, hn, hb, insertIp]
      rw [if_pos (hb ▸ hmax)]
    · intro b hb
      simp only [insertRecord, hn, hb, insertIp]
      rw [if_pos (hb ▸ hmax)]
  · intro n hn hmax
    constructor
    · intro b p hb
      subst hb
      simp only [insertRecord, hn]
      rw [if_neg hmax]
      simp only [insertCidr, cidrToKey, IpNetwork.netBits, IpNetwork.prefixLen]
    · intro b p hb
      subst hb
      simp only [insertRecord, hn]
      rw [if_neg hmax]
      simp only [insertCidr, cidrToKey, IpNetwork.netBits, IpNetwork.prefixLen]
  · rintro ⟨h1, h2⟩
    simp only [insertRecord, h1, h2]

/-- Witness for C5: a full-width CIDR, a short CIDR with host bits set,
and a garbage entry. -/
theorem insert_record_routing_witness :
    (insertRecord DbState.empty (.v4cidr 10 1 2 3 32) fProxyOnly =
      { DbState.empty with
          ip_v4 := tput DbState.empty.ip_v4 (octetsToNat 10 1 2 3) fProxyOnly }) ∧
    (insertRecord DbState.empty (.v4cidr 10 1 2 3 8) fProxyOnly =
      { DbState.empty with
          cidr_v4 := tput DbState.empty.cidr_v4
            (netAddr (octetsToNat 10 1 2 3) 8 32, 8) fProxyOnly }) ∧
    (insertRecord DbState.empty (.other "zzz") fProxyOnly = DbState.empty) :=
  ⟨((insert_record_routing DbState.empty (.v4cidr 10 1 2 3 32) fProxyOnly).1
      (.v4 (octetsToNat 10 1 2 3) 32) (by decide) (by decide)).1 _ rfl,
   ((insert_record_routing DbState.empty (.v4cidr 10 1 2 3 8) fProxyOnly).2.1
      (.v4 (octetsToNat 10 1 2 3) 8) (by decide) (by decide)).1 _ _ rfl,
   (insert_record_routing DbState.empty (.other "zzz") fProxyOnly).2.2
      ⟨rfl, rfl⟩⟩

/-! ## Claim C10 -/

/-- C10: for an entry string that parses as neither a CIDR nor a bare
address, `delete_record` returns `Ok(false)` and leaves the store
unchanged. -/
theorem delete_record_unparseable (db : DbState) (e : EntryStr)
    (h1 : parseIpNetwork e = none) (h2 : parseIpAddr e = none) :
    deleteRecord db e = (false, db) := by
  simp only [deleteRecord, h1, h2]

/-- Witness for C10 at a concrete garbage entry. -/
theorem delete_record_unparseable_witness :
    deleteRecord DbState.empty (.other "not-an-ip") = (false, DbState.empty) :=
  delete_record_unparseable DbState.empty (.other "not-an-ip") rfl rfl

/-! ## Claim C2

The claim fails on the code: `do_full_import` inserts every record that
parses as a network into the fresh trie, and a bare IP parses as a
full-width network — so the swapped trie contains full-width entries that
`rebuild_trie` (which reads only the CIDR partitions) never produces. -/

/-- C2 (refutation at the failing input): a full import of the single
bare-IP record `1.2.3.4` yields a swapped trie that answers the query
`1.2.3.4` with a `/32` match, while rebuilding the trie from the
committed store yields no match — the swapped trie differs from the
`rebuild_trie` trie. -/
theorem full_import_trie_differs_from_rebuild :
    ((doFullImport DbState.empty [⟨.v4lit 1 2 3 4, fProxyOnly⟩]
        "h" 0).1.trie.findAllMatches (.v4 (octetsToNat 1 2 3 4)) =
      [(.v4 (octetsToNat 1 2 3 4) 32, fProxyOnly)]) ∧
    ((rebuildTrie (doFullImport DbState.empty [⟨.v4lit 1 2 3 4, fProxyOnly⟩]
        "h" 0).1).trie.findAllMatches (.v4 (octetsToNat 1 2 3 4)) = []) :=
  ⟨by decide, by decide⟩

/-! ## Claim C6 -/

theorem parseIps_ok_of_all_some :
    ∀ ss : List EntryStr, (∀ s ∈ ss, (parseIpAddr s).isSome) →
      ∃ ips, parseIps ss = .ok ips := by
  intro ss
  induction ss with
  | nil => intro _; exact ⟨[], rfl⟩
  | cons s rest ih =>
    intro hall
    have hs := hall s (List.mem_cons_self s rest)
    cases hp : parseIpAddr s with
    | none => rw [hp] at hs; simp at hs
    | some ip =>
      obtain ⟨ips, hips⟩ := ih (fun t ht => hall t (List.mem_cons_of_mem _ ht))
      exact ⟨ip :: ips, by simp only [parseIps, hp, hips]⟩

theorem parseIps_spec :
    ∀ (ss : List EntryStr) (ips : List IpAddr), parseIps ss = .ok ips →
      ips.length = ss.length ∧
      ∀ i (h1 : i < ss.length) (h2 : i < ips.length),
        parseIpAddr (ss.get ⟨i, h1⟩) = some (ips.get ⟨i, h2⟩) := by
  intro ss
  induction ss with
  | nil =>
    intro ips h
    have h0 : ips = [] := by
      simp only [parseIps] at h
      injection h with h'
      exact h'.symm
    subst h0
    exact ⟨rfl, fun i h1 _ => absurd h1 (by simp)⟩
  | cons s rest ih =>
    intro ips h
    simp only [parseIps] at h
    cases hp : parseIpAddr s with
    | none => rw [hp] at h; cases h
    | some ip =>
      rw [hp] at h
      cases hr : parseIps rest with
      | error e => rw [hr] at h; cases h
      | ok ips' =>
        rw [hr] at h
        injection h with h'
        subst h'
        obtain ⟨hlen, hpt⟩ := ih ips' hr
        refine ⟨by simp [hlen], ?_⟩
        intro i h1 h2
        cases i with
        | zero => simpa using hp
        | succ j =>
          simpa using hpt j (by simpa using h1) (by simpa using h2)

theorem parseIps_err :
    ∀ (ss : List EntryStr) (s : EntryStr),
      ss.find? (fun t => (parseIpAddr t).isNone) = some s →
      parseIps ss = .error (.invalidIp s) := by
  intro ss
  induction ss with
  | nil => intro s h; cases h
  | cons t rest ih =>
    intro s h
    by_cases hp : (parseIpAddr t).isNone
    · rw [List.find?_cons_of_pos _ (by simpa using hp)] at h
      injection h with h'
      subst h'
      cases hpp : parseIpAddr t with
      | none => simp only [parseIps, hpp]
      | some ip => rw [hpp] at hp; simp at hp
    · rw [List.find?_cons_of_neg _ (by simpa using hp)] at h
      have hrec := ih s h
      cases hpp : parseIpAddr t with
      | none => rw [hpp] at hp; simp at hp
      | some ip => simp only [parseIps, hpp, hrec]

/-- C6: if every input of a batch parses, `lookup_ips_batch` returns one
result per input in order, each equal to `lookup_ip` of that input against
the same store and trie; if some input fails to parse, the whole batch
fails with `InvalidIp` for that (first failing) element. -/
theorem batch_lookup_matches_single (db : DbState) (ss : List EntryStr) :
    ((∀ s ∈ ss, (parseIpAddr s).isSome) →
      ∃ rs, lookupIpsBatch db ss = .ok rs ∧ rs.length = ss.length ∧
        ∀ i (h1 : i < ss.length) (h2 : i < rs.length),
          lookupIp db (ss.get ⟨i, h1⟩) = .ok (rs.get ⟨i, h2⟩)) ∧
    (∀ s, ss.find? (fun t => (parseIpAddr t).isNone) = some s →
      lookupIpsBatch db ss = .error (.invalidIp s)) := by
  constructor
  · intro hall
    obtain ⟨ips, hips⟩ := parseIps_ok_of_all_some ss hall
    obtain ⟨hlen, hpt⟩ := parseIps_spec ss ips hips
    refine ⟨((ips.zip (dbLookupIpsBatch db ips)).zip ss).map
      (fun t => assemble db t.1.1 t.1.2 t.2), ?_, ?_, ?_⟩
    · simp only [lookupIpsBatch, hips]
    · simp [dbLookupIpsBatch, hlen]
    · intro i h1 h2
      have hi : i < ips.length := by omega
      have hp := hpt i h1 hi
      simp only [lookupIp, hp]
      congr 1
      simp [List.get_eq_getElem, List.getElem_map, List.getElem_zip,
        dbLookupIpsBatch]
  · intro s hfind
    simp only [lookupIpsBatch, parseIps_err ss s hfind]

theorem batch_lookup_matches_single_witness :
    (∀ s ∈ [EntryStr.v4lit 1 2 3 4], (parseIpAddr s).isSome) ∧
    (∃ rs, lookupIpsBatch DbState.empty [EntryStr.v4lit 1 2 3 4] = .ok rs ∧
      rs.length = [EntryStr.v4lit 1 2 3 4].length ∧
      ∀ i (h1 : i < [EntryStr.v4lit 1 2 3 4].length) (h2 : i < rs.length),
        lookupIp DbState.empty ([EntryStr.v4lit 1 2 3 4].get ⟨i, h1⟩) =
          .ok (rs.get ⟨i, h2⟩)) :=
  ⟨by decide,
   (batch_lookup_matches_single DbState.empty [EntryStr.v4lit 1 2 3 4]).1
     (by decide)⟩

/-! ## Claim C8 -/

/-- The nine flag columns: the header name recognised by
`HeaderIndices::from_headers` paired with the flag it sets. -/
def flagSpecs : List (String × (ReputationFlags → Bool)) :=
  [("anonblock", ReputationFlags.anonblock),
   ("proxy", ReputationFlags.proxy),
   ("vpn", ReputationFlags.vpn),
   ("cdn", ReputationFlags.cdn),
   ("public-wifi", ReputationFlags.public_wifi),
   ("rangeblock", ReputationFlags.rangeblock),
   ("school-block", ReputationFlags.school_block),
   ("tor", ReputationFlags.tor),
   ("webhost", ReputationFlags.webhost)]

theorem parseBool_spec (c : String) :
    parseBool c = true ↔ strToLower (strTrim c) ∈ ["true", "1", "yes"] := by
  simp [parseBool, or_assoc]

theorem getBoolAt_spec (row : List String) (idx : Option Nat) :
    getBoolAt row idx = true ↔
      ∃ i c, idx = some i ∧ row.get? i = some c ∧
        strToLower (strTrim c) ∈ ["true", "1", "yes"] := by
  simp only [List.get?_eq_getElem?]
  cases idx with
  | none => simp [getBoolAt]
  | some i =>
    cases hg : row[i]? with
    | none => simp [getBoolAt, hg]
    | some c =>
      rw [show getBoolAt row (some i) = parseBool c by simp [getBoolAt, hg]]
      constructor
      · intro h
        exact ⟨i, c, rfl, hg, (parseBool_spec c).mp h⟩
      · rintro ⟨i', c', hi', hc', hm⟩
        injection hi' with hi'
        subst hi'
        rw [hg] at hc'
        injection hc' with hc'
        subst hc'
        exact (parseBool_spec c).mpr hm

/-- C8: each of the nine flags is true exactly when the header row contains
the flag's recognised name and the row's cell at that position, trimmed and
lowercased, is one of "true", "1", "yes"; a flag whose header is absent is
false; and a row whose column 0 is missing or empty produces no record,
while any other row produces exactly its record. -/
theorem csv_flags_correct (headers : List String) (rows : List (List String))
    (row : List String) :
    (∀ p ∈ flagSpecs,
      (p.2 ((HeaderIndices.fromHeaders headers).extractFlags row) = true ↔
        ∃ i c, findIndexS headers p.1 = some i ∧ row.get? i = some c ∧
          strToLower (strTrim c) ∈ ["true", "1", "yes"]) ∧
      (findIndexS headers p.1 = none →
        p.2 ((HeaderIndices.fromHeaders headers).extractFlags row) = false)) ∧
    ((row.get? 0 = none ∨ row.get? 0 = some "") →
      parseCsv headers (row :: rows) = parseCsv headers rows) ∧
    (∀ ip, row.get? 0 = some ip → ip ≠ "" →
      parseCsv headers (row :: rows) =
        ⟨ip, (HeaderIndices.fromHeaders headers).extractFlags row⟩ ::
          parseCsv headers rows) := by
  refine ⟨?_, ?_, ?_⟩
  · intro p hp
    simp only [flagSpecs, List.mem_cons, List.not_mem_nil, or_false] at hp
    rcases hp with rfl | rfl | rfl | rfl | rfl | rfl | rfl | rfl | rfl <;>
      exact ⟨by simpa [HeaderIndices.extractFlags, HeaderIndices.fromHeaders]
          using getBoolAt_spec row _,
        fun h => by
          simp [HeaderIndices.extractFlags, HeaderIndices.fromHeaders, h,
            getBoolAt]⟩
  · intro h
    rcases h with h | h <;> simp only [List.get?_eq_getElem?] at h <;>
      simp [parseCsv, List.filterMap_cons, h]
  · intro ip hip hne
    simp only [List.get?_eq_getElem?] at hip
    simp [parseCsv, List.filterMap_cons, hip, hne]

theorem csv_flags_correct_witness :
    (("proxy", ReputationFlags.proxy) ∈ flagSpecs ∧
      (ReputationFlags.proxy
          ((HeaderIndices.fromHeaders ["ip", "proxy"]).extractFlags
            ["1.2.3.4", " TRUE "]) = true ↔
        ∃ i c, findIndexS ["ip", "proxy"] "proxy" = some i ∧
          ["1.2.3.4", " TRUE "].get? i = some c ∧
          strToLower (strTrim c) ∈ ["true", "1", "yes"])) ∧
    parseCsv ["ip", "proxy"] [["1.2.3.4", " TRUE "]] =
      [⟨"1.2.3.4",
        (HeaderIndices.fromHeaders ["ip", "proxy"]).extractFlags
          ["1.2.3.4", " TRUE "]⟩] := by
  refine ⟨⟨by simp [flagSpecs], ?_⟩, ?_⟩
  · exact ((csv_flags_correct ["ip", "proxy"] [] ["1.2.3.4", " TRUE "]).1
      ("proxy", ReputationFlags.proxy) (by simp [flagSpecs])).1
  · exact (csv_flags_correct ["ip", "proxy"] [] ["1.2.3.4", " TRUE "]).2.2
      "1.2.3.4" rfl (by decide)

/-! ## Claim C3 -/

theorem foldl_fixed {α β : Type} {f : β → α → β} {s : β} {l : List α}
    (h : ∀ a ∈ l, f s a = s) : l.foldl f s = s := by
  induction l with
  | nil => rfl
  | cons a t ih =>
    rw [List.foldl_cons, h a (List.mem_cons_self a t)]
    exact ih (fun b hb => h b (List.mem_cons_of_mem a hb))

/-- C3 counterexample: importing the single record "10.0.0.1/32" twice is
not idempotent. The entry parses as a full-width network, so it is stored
in the exact-IP table and round-trips through `get_all_entries` as
"10.0.0.1"; the second run fails to find "10.0.0.1/32" in the snapshot,
re-inserts it (added = 1), then deletes the stale-looking "10.0.0.1"
(deleted = 1), emptying the partition that the first run had filled. -/
theorem incremental_import_second_run_nonzero :
    (doIncrementalImport
        (doIncrementalImport DbState.empty
          [⟨EntryStr.v4cidr 10 0 0 1 32, fProxyOnly⟩] "h" 0).1
        [⟨EntryStr.v4cidr 10 0 0 1 32, fProxyOnly⟩] "h" 0).2 = (1, 0, 1) ∧
    (doIncrementalImport
        (doIncrementalImport DbState.empty
          [⟨EntryStr.v4cidr 10 0 0 1 32, fProxyOnly⟩] "h" 0).1
        [⟨EntryStr.v4cidr 10 0 0 1 32, fProxyOnly⟩] "h" 0).1.ip_v4 ≠
      (doIncrementalImport DbState.empty
        [⟨EntryStr.v4cidr 10 0 0 1 32, fProxyOnly⟩] "h" 0).1.ip_v4 := by
  decide

/-- C3 (amended): a run of `incremental_import` returns (0, 0, 0) and
leaves the four entry partitions unchanged whenever the store is exactly
synchronised with the records: every record's entry string is present in
the `get_all_entries` snapshot with equal flags, and every snapshot
entry's string occurs among the records. A first run establishes this
state exactly when every stored row round-trips to the entry string it
came from, which non-canonical entries such as "10.0.0.1/32" violate. -/
theorem incremental_import_idempotent_when_synced
    (db : DbState) (records : List CsvRecord) (hash : String) (now : Int)
    (hall : ∀ r ∈ records, lookupStr (getAllEntries db) r.ip = some r.flags)
    (hcov : ∀ e ∈ getAllEntries db,
      records.any (fun r => decide (r.ip = e.1)) = true) :
    (doIncrementalImport db records hash now).2 = (0, 0, 0) ∧
    (doIncrementalImport db records hash now).1.ip_v4 = db.ip_v4 ∧
    (doIncrementalImport db records hash now).1.ip_v6 = db.ip_v6 ∧
    (doIncrementalImport db records hash now).1.cidr_v4 = db.cidr_v4 ∧
    (doIncrementalImport db records hash now).1.cidr_v6 = db.cidr_v6 := by
  simp only [doIncrementalImport]
  rw [foldl_fixed, foldl_fixed]
  · refine ⟨rfl, ?_, ?_, ?_, ?_⟩ <;> simp [rebuildTrie, setMetadata]
  · intro e he
    simp [hcov e he]
  · intro r hr
    simp [hall r hr]

def dbSynced1 : DbState :=
  (doIncrementalImport DbState.empty
    [⟨EntryStr.v4lit 1 2 3 4, fProxyOnly⟩] "h" 0).1

theorem incremental_import_idempotent_when_synced_witness :
    (∀ r ∈ [(⟨EntryStr.v4lit 1 2 3 4, fProxyOnly⟩ : CsvRecord)],
      lookupStr (getAllEntries dbSynced1) r.ip = some r.flags) ∧
    (∀ e ∈ getAllEntries dbSynced1,
      [(⟨EntryStr.v4lit 1 2 3 4, fProxyOnly⟩ : CsvRecord)].any
        (fun r => decide (r.ip = e.1)) = true) ∧
    (doIncrementalImport dbSynced1
      [⟨EntryStr.v4lit 1 2 3 4, fProxyOnly⟩] "h" 0).2 = (0, 0, 0) :=
  ⟨by decide, by decide,
    (incremental_import_idempotent_when_synced dbSynced1
      [⟨EntryStr.v4lit 1 2 3 4, fProxyOnly⟩] "h" 0
      (by decide) (by decide)).1⟩

/-! ## Claim C4 -/

/-- The destination key a stored entry occupies: one of the four
partitions together with the key used there. -/
inductive Dest where
  | ip4 (k : Nat)
  | ip6 (k : Nat)
  | cidr4 (k : Nat × Nat)
  | cidr6 (k : Nat × Nat)
deriving DecidableEq, Repr

/-- Where `insert_record` stores an entry, if anywhere: the routing of
`Database::insert_record` made explicit. -/
def route (e : EntryStr) : Option Dest :=
  match parseIpNetwork e with
  | some n =>
    if n.prefixLen = n.rawIp.maxPrefixLen then
      match n.rawIp with
      | .v4 b => some (.ip4 b)
      | .v6 b => some (.ip6 b)
    else
      match n with
      | .v4 _ _ => some (.cidr4 (cidrToKey n))
      | .v6 _ _ => some (.cidr6 (cidrToKey n))
  | none =>
    match parseIpAddr e with
    | some (.v4 b) => some (.ip4 b)
    | some (.v6 b) => some (.ip6 b)
    | none => none

def keyIn (db : DbState) : Dest → Prop
  | .ip4 k => k ∈ db.ip_v4.map Prod.fst
  | .ip6 k => k ∈ db.ip_v6.map Prod.fst
  | .cidr4 k => k ∈ db.cidr_v4.map Prod.fst
  | .cidr6 k => k ∈ db.cidr_v6.map Prod.fst

/-- Total number of rows across the four entry partitions. -/
def rowCount (db : DbState) : Nat :=
  db.ip_v4.length + db.ip_v6.length + db.cidr_v4.length + db.cidr_v6.length

theorem tput_length_of_not_mem {K : Type} [DecidableEq K] :
    ∀ (t : Tbl K) (k : K) (f : ReputationFlags),
      k ∉ t.map Prod.fst → (tput t k f).length = t.length + 1
  | [], _, _, _ => rfl
  | (k', f') :: rest, k, f, h => by
    simp only [List.map_cons, List.mem_cons, not_or] at h
    simp only [tput]
    rw [if_neg (fun he => h.1 he.symm)]
    simp only [List.length_cons]
    rw [tput_length_of_not_mem rest k f h.2]

theorem mem_keys_tput {K : Type} [DecidableEq K] :
    ∀ (t : Tbl K) (k k' : K) (f : ReputationFlags),
      k' ∈ (tput t k f).map Prod.fst ↔ k' ∈ t.map Prod.fst ∨ k' = k
  | [], k, k', f => by simp [tput]
  | (a, b) :: rest, k, k', f => by
    simp only [tput]
    by_cases hak : a = k
    · rw [if_pos hak]
      subst hak
      simp [List.map_cons, List.mem_cons]
      tauto
    · rw [if_neg hak]
      simp only [List.map_cons, List.mem_cons, mem_keys_tput rest k k' f]
      tauto

/-- Inserting a routed entry whose key is absent grows the total row
count by exactly one. -/
theorem insertRecord_rowCount (db : DbState) (e : EntryStr)
    (f : ReputationFlags) (d : Dest) (hd : route e = some d)
    (hnin : ¬ keyIn db d) :
    rowCount (insertRecord db e f) = rowCount db + 1 := by
  cases hn : parseIpNetwork e with
  | some n =>
    simp only [route, hn] at hd
    simp only [insertRecord, hn]
    by_cases hmax : n.prefixLen = n.rawIp.maxPrefixLen
    · rw [if_pos hmax] at hd ⊢
      cases hip : n.rawIp with
      | v4 b =>
        simp only [hip] at hd
        injection hd with hd
        subst hd
        simp only [keyIn] at hnin
        simp only [insertIp, rowCount]
        rw [tput_length_of_not_mem db.ip_v4 b f hnin]
        omega
      | v6 b =>
        simp only [hip] at hd
        injection hd with hd
        subst hd
        simp only [keyIn] at hnin
        simp only [insertIp, rowCount]
        rw [tput_length_of_not_mem db.ip_v6 b f hnin]
        omega
    · rw [if_neg hmax] at hd ⊢
      cases n with
      | v4 a p =>
        simp only [] at hd
        injection hd with hd
        subst hd
        simp only [keyIn] at hnin
        simp only [insertCidr, rowCount]
        rw [tput_length_of_not_mem db.cidr_v4 _ f hnin]
        omega
      | v6 a p =>
        simp only [] at hd
        injection hd with hd
        subst hd
        simp only [keyIn] at hnin
        simp only [insertCidr, rowCount]
        rw [tput_length_of_not_mem db.cidr_v6 _ f hnin]
        omega
  | none =>
    simp only [route, hn] at hd
    simp only [insertRecord, hn]
    cases ha : parseIpAddr e with
    | none => rw [ha] at hd; exact Option.noConfusion hd
    | some ip =>
      rw [ha] at hd
      cases ip with
      | v4 b =>
        simp only [] at hd
        injection hd with hd
        subst hd
        simp only [keyIn] at hnin
        simp only [insertIp, rowCount]
        rw [tput_length_of_not_mem db.ip_v4 b f hnin]
        omega
      | v6 b =>
        simp only [] at hd
        injection hd with hd
        subst hd
        simp only [keyIn] at hnin
        simp only [insertIp, rowCount]
        rw [tput_length_of_not_mem db.ip_v6 b f hnin]
        omega

/-- Inserting a routed entry adds exactly its own destination key to the
store's key set. -/
theorem insertRecord_keyIn (db : DbState) (e : EntryStr)
    (f : ReputationFlags) (d : Dest) (hd : route e = some d) (d' : Dest) :
    keyIn (insertRecord db e f) d' ↔ keyIn db d' ∨ d' = d := by
  cases hn : parseIpNetwork e with
  | some n =>
    simp only [route, hn] at hd
    simp only [insertRecord, hn]
    by_cases hmax : n.prefixLen = n.rawIp.maxPrefixLen
    · rw [if_pos hmax] at hd ⊢
      cases hip : n.rawIp with
      | v4 b =>
        simp only [hip] at hd
        injection hd with hd
        subst hd
        cases d' with
        | ip4 k' =>
          simp only [keyIn, insertIp]
          rw [mem_keys_tput]
          simp
        | ip6 k' => simp [keyIn, insertIp]
        | cidr4 k' => simp [keyIn, insertIp]
        | cidr6 k' => simp [keyIn, insertIp]
      | v6 b =>
        simp only [hip] at hd
        injection hd with hd
        subst hd
        cases d' with
        | ip6 k' =>
          simp only [keyIn, insertIp]
          rw [mem_keys_tput]
          simp
        | ip4 k' => simp [keyIn, insertIp]
        | cidr4 k' => simp [keyIn, insertIp]
        | cidr6 k' => simp [keyIn, insertIp]
    · rw [if_neg hmax] at hd ⊢
      cases n with
      | v4 a p =>
        simp only [] at hd
        injection hd with hd
        subst hd
        cases d' with
        | cidr4 k' =>
          simp only [keyIn, insertCidr]
          rw [mem_keys_tput]
          simp
        | ip4 k' => simp [keyIn, insertCidr]
        | ip6 k' => simp [keyIn, insertCidr]
        | cidr6 k' => simp [keyIn, insertCidr]
      | v6 a p =>
        simp only [] at hd
        injection hd with hd
        subst hd
        cases d' with
        | cidr6 k' =>
          simp only [keyIn, insertCidr]
          rw [mem_keys_tput]
          simp
        | ip4 k' => simp [keyIn, insertCidr]
        | ip6 k' => simp [keyIn, insertCidr]
        | cidr4 k' => simp [keyIn, insertCidr]
  | none =>
    simp only [route, hn] at hd
    simp only [insertRecord, hn]
    cases ha : parseIpAddr e with
    | none => rw [ha] at hd; exact Option.noConfusion hd
    | some ip =>
      rw [ha] at hd
      cases ip with
      | v4 b =>
        simp only [] at hd
        injection hd with hd
        subst hd
        cases d' with
        | ip4 k' =>
          simp only [keyIn, insertIp]
          rw [mem_keys_tput]
          simp
        | ip6 k' => simp [keyIn, insertIp]
        | cidr4 k' => simp [keyIn, insertIp]
        | cidr6 k' => simp [keyIn, insertIp]
      | v6 b =>
        simp only [] at hd
        injection hd with hd
        subst hd
        cases d' with
        | ip6 k' =>
          simp only [keyIn, insertIp]
          rw [mem_keys_tput]
          simp
        | ip4 k' => simp [keyIn, insertIp]
        | cidr4 k' => simp [keyIn, insertIp]
        | cidr6 k' => simp [keyIn, insertIp]

/-- Folding `insert_record` over parseable records with pairwise-distinct
fresh destinations adds one row per record. -/
theorem fold_insert_rows :
    ∀ (records : List CsvRecord) (db : DbState),
      (∀ r ∈ records, (route r.ip).isSome) →
      (records.filterMap (fun r => route r.ip)).Nodup →
      (∀ r ∈ records, ∀ d, route r.ip = some d → ¬ keyIn db d) →
      rowCount (records.foldl
        (fun d r => insertRecord d r.ip r.flags) db) =
        rowCount db + records.length
  | [], db, _, _, _ => by simp
  | r :: rest, db, hall, hnd, hdis => by
    obtain ⟨d, hd⟩ :=
      Option.isSome_iff_exists.mp (hall r (List.mem_cons_self r rest))
    have hnin : ¬ keyIn db d := hdis r (List.mem_cons_self r rest) d hd
    have hfm : (r :: rest).filterMap (fun x => route x.ip) =
        d :: rest.filterMap (fun x => route x.ip) := by
      simp [List.filterMap_cons, hd]
    rw [hfm] at hnd
    have hdnotin : d ∉ rest.filterMap (fun x => route x.ip) :=
      (List.nodup_cons.mp hnd).1
    have hdis' : ∀ x ∈ rest, ∀ d', route x.ip = some d' →
        ¬ keyIn (insertRecord db r.ip r.flags) d' := by
      intro x hx d' hd'
      rw [insertRecord_keyIn db r.ip r.flags d hd d']
      rintro (h | rfl)
      · exact hdis x (List.mem_cons_of_mem r hx) d' hd' h
      · exact hdnotin (List.mem_filterMap.mpr ⟨x, hx, hd'⟩)
    rw [List.foldl_cons,
      fold_insert_rows rest (insertRecord db r.ip r.flags)
        (fun x hx => hall x (List.mem_cons_of_mem r hx))
        (List.nodup_cons.mp hnd).2 hdis',
      insertRecord_rowCount db r.ip r.flags d hd hnin]
    simp only [List.length_cons]
    omega

/-- The store component of the full-import fold ignores the trie
component. -/
theorem foldl_pair_fst :
    ∀ (records : List CsvRecord) (db : DbState) (t : IpTrie),
      (records.foldl
        (fun (st : DbState × IpTrie) r =>
          (insertRecord st.1 r.ip r.flags,
            match parseIpNetwork r.ip with
            | some n => st.2.insert n r.flags
            | none => st.2)) (db, t)).1 =
      records.foldl (fun d r => insertRecord d r.ip r.flags) db
  | [], _, _ => rfl
  | r :: rest, db, t => by
    rw [List.foldl_cons, List.foldl_cons]
    exact foldl_pair_fst rest _ _

/-- C4 counterexample: a full import of the single unparseable record
"zzz" commits record_count = 1 while all four entry partitions stay
empty, because `insert_record` silently drops the entry but the count is
taken from the input length. -/
theorem record_count_exceeds_rows_on_garbage :
    (getMetadata (doFullImport DbState.empty
        [⟨EntryStr.other "zzz", fProxyOnly⟩] "h" 0).1).record_count = 1 ∧
    rowCount (doFullImport DbState.empty
        [⟨EntryStr.other "zzz", fProxyOnly⟩] "h" 0).1 = 0 := by
  decide

/-- C4 (amended): after either import commits, record_count equals the
length of the input record list, which is not in general the partition
row total; the two agree for a full import whose records all parse and
route to pairwise-distinct destination keys. -/
theorem record_count_matches_input (db : DbState)
    (records : List CsvRecord) (hash : String) (now : Int) :
    (getMetadata (doFullImport db records hash now).1).record_count =
      records.length ∧
    (getMetadata (doIncrementalImport db records hash now).1).record_count =
      records.length ∧
    ((∀ r ∈ records, (route r.ip).isSome) →
      (records.filterMap (fun r => route r.ip)).Nodup →
      rowCount (doFullImport db records hash now).1 = records.length) := by
  refine ⟨rfl, rfl, ?_⟩
  intro h1 h2
  have hdis : ∀ r ∈ records, ∀ d, route r.ip = some d →
      ¬ keyIn (clearAll db) d := by
    intro r _ d _
    cases d <;> simp [keyIn, clearAll]
  have e1 : rowCount (doFullImport db records hash now).1 =
      rowCount ((records.foldl
        (fun (st : DbState × IpTrie) r =>
          (insertRecord st.1 r.ip r.flags,
            match parseIpNetwork r.ip with
            | some n => st.2.insert n r.flags
            | none => st.2)) (clearAll db, IpTrie.new)).1) := rfl
  rw [e1, foldl_pair_fst records (clearAll db) IpTrie.new,
    fold_insert_rows records (clearAll db) h1 h2 hdis]
  simp [rowCount, clearAll]

theorem record_count_matches_input_witness :
    (∀ r ∈ [(⟨EntryStr.v4lit 9 9 9 9, fVpnOnly⟩ : CsvRecord)],
      (route r.ip).isSome) ∧
    ([(⟨EntryStr.v4lit 9 9 9 9, fVpnOnly⟩ : CsvRecord)].filterMap
      (fun r => route r.ip)).Nodup ∧
    rowCount (doFullImport DbState.empty
      [⟨EntryStr.v4lit 9 9 9 9, fVpnOnly⟩] "h" 0).1 = 1 :=
  ⟨by decide, by decide,
    (record_count_matches_input DbState.empty
      [⟨EntryStr.v4lit 9 9 9 9, fVpnOnly⟩] "h" 0).2.2
      (by decide) (by decide)⟩

end ProxyD
